import Mathlib

/-!
Verification of the documentation synchronization pipeline (nextai).

This file gives a shallow embedding of the pipeline's core:
* MDX segmentation (`processMdxForSearch`, `splitTreeBy`, `extractMetaExport`,
  `getObjectFromExpression`) over a model of mdast/estree trees,
* the slug generator (`github-slugger`'s occurrence-counting loop),
* content discovery (`walk` / `walkGithubDirectory`) over a model filesystem,
* the reconciliation loop of `generateEmbeddings` over a model of the
  two-table page/section store,

and proves the spec-level properties about them.
-/

namespace Nextai

/-! ## String helpers modelling the JS string operations used by the source -/

/-- Models `content.replace(/\n/g, ' ')`: every newline becomes a space. -/
def newlineToSpace (s : String) : String :=
  String.mk (s.data.map (fun c => if c = '\n' then ' ' else c))

/-- Models node's `path.join(dir, name)` for the plain `dir`, `name` arguments
the walker passes (no trailing separators, no `.`/`..` segments). -/
def pathJoin (dir name : String) : String :=
  dir ++ "/" ++ name

/-- `s` starts with `p` (drives the anchored regex `/^docs/`). -/
def strTakeIs (s p : String) : Bool :=
  s.data.take p.data.length = p.data

/-- `s` ends with `p` (drives the anchored regex `/\.mdx?$/`). -/
def strDropIs (s p : String) : Bool :=
  s.data.drop (s.data.length - p.data.length) = p.data ∧
    p.data.length ≤ s.data.length

/-- Models `filePath.replace(/^docs/, '')` in `GithubEmbeddingSource`. -/
def stripDocs (s : String) : String :=
  if strTakeIs s "docs" then String.mk (s.data.drop 4) else s

/-- Models `.replace(/\.mdx?$/, '')`: the regex removes a final `.mdx`,
or else a final `.md`; anchored at the end, so nothing else matches. -/
def stripMdExt (s : String) : String :=
  if strDropIs s ".mdx" then String.mk (s.data.take (s.data.length - 4))
  else if strDropIs s ".md" then String.mk (s.data.take (s.data.length - 3))
  else s

/-- The path normalization `GithubEmbeddingSource`'s constructor applies to
both `filePath` and `parentFilePath`. -/
def normalizeGithubPath (s : String) : String :=
  stripMdExt (stripDocs s)

/-! ## Decimal rendering of naturals

`github-slugger` builds suffixed candidates as `originalSlug + '-' + counter`,
where the JS number is rendered in decimal.  We model that rendering and prove
it injective, which is what makes distinct counters give distinct slugs. -/

/-- Digit characters of `n`, most significant first, with structural fuel
(`fuel ≥ n` suffices). -/
def natDigitsAux : Nat → Nat → List Char
  | 0, n => [Char.ofNat (48 + n)]
  | fuel + 1, n =>
    if n < 10 then [Char.ofNat (48 + n)]
    else natDigitsAux fuel (n / 10) ++ [Char.ofNat (48 + n % 10)]

/-- The decimal digit characters of `n`, most significant first. -/
def natDigits (n : Nat) : List Char :=
  natDigitsAux n n

/-- Decimal rendering of a natural number (models JS `'' + n`). -/
def natStr (n : Nat) : String :=
  String.mk (natDigits n)

/-- Numeric value of a digit character. -/
def digitVal (c : Char) : Nat := c.toNat - 48

/-- Value of a digit string, most significant first. -/
def digitsVal (l : List Char) : Nat :=
  l.foldl (fun a c => a * 10 + digitVal c) 0

theorem digitsVal_append_singleton (l : List Char) (c : Char) :
    digitsVal (l ++ [c]) = digitsVal l * 10 + digitVal c := by
  simp [digitsVal, List.foldl_append]

theorem digitVal_ofNat {d : Nat} (h : d < 10) :
    digitVal (Char.ofNat (48 + d)) = d := by
  interval_cases d <;> decide

theorem digitsVal_natDigitsAux :
    ∀ (fuel n : Nat), n ≤ fuel → digitsVal (natDigitsAux fuel n) = n := by
  intro fuel
  induction fuel with
  | zero =>
    intro n hn
    have h0 : n = 0 := Nat.le_zero.mp hn
    subst h0
    simp [natDigitsAux, digitsVal, digitVal_ofNat (by omega : (0:Nat) < 10)]
  | succ fuel ih =>
    intro n hn
    by_cases h : n < 10
    · rw [natDigitsAux]
      simp only [h, if_true]
      simp [digitsVal, digitVal_ofNat h]
    · rw [natDigitsAux]
      simp only [h, if_false]
      have hdiv : n / 10 ≤ fuel := by
        have := Nat.div_lt_self (by omega : 0 < n) (by omega : 1 < 10)
        omega
      rw [digitsVal_append_singleton, ih (n / 10) hdiv,
        digitVal_ofNat (Nat.mod_lt _ (by omega))]
      omega

theorem digitsVal_natDigits (n : Nat) : digitsVal (natDigits n) = n :=
  digitsVal_natDigitsAux n n (Nat.le_refl n)

theorem natStr_injective : Function.Injective natStr := by
  intro a b h
  have hd : natDigits a = natDigits b := by
    have := congrArg String.data h
    simpa [natStr] using this
  have := congrArg digitsVal hd
  simpa [digitsVal_natDigits] using this

theorem natDigitsAux_ne_nil (fuel n : Nat) : natDigitsAux fuel n ≠ [] := by
  cases fuel with
  | zero => simp [natDigitsAux]
  | succ fuel =>
    rw [natDigitsAux]
    split <;> simp

theorem natDigits_ne_nil (n : Nat) : natDigits n ≠ [] :=
  natDigitsAux_ne_nil n n

theorem natStr_ne_empty (n : Nat) : natStr n ≠ "" := by
  intro h
  exact natDigits_ne_nil n (by simpa [natStr, String.ext_iff] using h)

/-! ## The slug generator (`github-slugger`)

`processMdxForSearch` creates one `GithubSlugger` per document.  Its `slug`
method keeps a map `occurrences`; given a heading it computes a base slug,
then while the candidate is already a key it increments the counter stored
under the original slug and retries with `original + '-' + counter`; finally
it registers the returned slug with counter `0`. -/

/-- ASCII lower-casing of one character (the relevant fragment of JS
`toLowerCase` for the headings modelled here). -/
def charLower (c : Char) : Char :=
  if 'A' ≤ c && c ≤ 'Z' then Char.ofNat (c.toNat + 32) else c

/-- Base slug computation (the library's `slugger(value)`): lower-case,
spaces become dashes, characters that are neither alphanumeric nor `-`/`_`
are removed. -/
def slugChar (c : Char) : Option Char :=
  if c = ' ' then some '-'
  else if c.isAlphanum || c = '-' || c = '_' then some c
  else none

/-- Base slug of a heading text. -/
def githubSlug (s : String) : String :=
  String.mk ((s.data.map charLower).filterMap slugChar)

/-- The slugger's `occurrences` map, as an association list. -/
abbrev Occ := List (String × Nat)

def occHas (occ : Occ) (k : String) : Bool :=
  occ.any (fun e => e.1 = k)

def occGet (occ : Occ) (k : String) : Nat :=
  match occ.find? (fun e => e.1 = k) with
  | some e => e.2
  | none => 0

def occSet : Occ → String → Nat → Occ
  | [], k, v => [(k, v)]
  | e :: rest, k, v =>
    if e.1 = k then (k, v) :: rest else e :: occSet rest k v

/-- Suffixed slug candidate `originalSlug + '-' + counter`. -/
def cand (orig : String) (n : Nat) : String :=
  orig ++ "-" ++ natStr n

/-- The `while (own.call(occurrences, result))` loop of `slug`, with explicit
fuel.  Each pass increments the counter stored under `orig` and retries with
`orig ++ "-" ++ counter`. -/
def slugLoop : Nat → Occ → String → String → String × Occ
  | 0, occ, _, cur => (cur, occ)
  | fuel + 1, occ, orig, cur =>
    if occHas occ cur then
      let n := occGet occ orig + 1
      slugLoop fuel (occSet occ orig n) orig (cand orig n)
    else (cur, occ)

/-- One call of `GithubSlugger#slug`: run the retry loop (the fuel
`occ.length + 1` is enough, see `slugLoop_fresh`), then register the
returned slug with counter `0`. -/
def slugOne (occ : Occ) (value : String) : String × Occ :=
  let base := githubSlug value
  let p := slugLoop (occ.length + 1) occ base base
  (p.1, occSet p.2 p.1 0)

/-- Running a fresh slugger (empty `occurrences`, as allocated per document)
over a list of heading texts, in order. -/
def sluggerRun (occ : Occ) : List String → List String
  | [] => []
  | h :: rest =>
    let p := slugOne occ h
    p.1 :: sluggerRun p.2 rest

/-! ### Slugger lemmas -/

theorem occSet_keys (occ : Occ) (k : String) (v : Nat) (h : occHas occ k) :
    (occSet occ k v).map Prod.fst = occ.map Prod.fst := by
  induction occ with
  | nil => simp [occHas] at h
  | cons e rest ih =>
    by_cases he : e.1 = k
    · simp [occSet, he]
    · have h' : occHas rest k := by
        simpa [occHas, he] using h
      simp [occSet, he, ih h']

theorem occHas_iff_mem_keys (occ : Occ) (k : String) :
    occHas occ k = true ↔ k ∈ occ.map Prod.fst := by
  simp [occHas, List.any_eq_true]

theorem occSet_length (occ : Occ) (k : String) (v : Nat) (h : occHas occ k) :
    (occSet occ k v).length = occ.length := by
  have := congrArg List.length (occSet_keys occ k v h)
  simpa using this

/-- A candidate with a dash-suffix is never the bare original. -/
theorem cand_ne_orig (orig : String) (n : Nat) :
    cand orig n ≠ orig := by
  show orig ++ "-" ++ natStr n ≠ orig
  intro h
  have hd := congrArg String.length h
  simp only [String.length_append] at hd
  have h1 : ("-" : String).length = 1 := rfl
  omega

/-- Distinct counters give distinct suffix candidates. -/
theorem cand_injective (orig : String) {a b : Nat}
    (h : cand orig a = cand orig b) : a = b := by
  apply natStr_injective
  have hd := congrArg String.data h
  simp only [cand, String.data_append] at hd
  have := List.append_cancel_left hd
  exact String.ext this

theorem occGet_occSet_self (occ : Occ) (k : String) (v : Nat) :
    occGet (occSet occ k v) k = v := by
  induction occ with
  | nil => simp [occSet, occGet, List.find?]
  | cons e rest ih =>
    by_cases he : e.1 = k
    · simp [occSet, he, occGet, List.find?]
    · simp only [occSet, he, if_false]
      simpa [occGet, List.find?, he] using ih

theorem occHas_eq_of_keys {occ occ2 : Occ} (s : String)
    (h : occ.map Prod.fst = occ2.map Prod.fst) :
    occHas occ s = occHas occ2 s := by
  rcases hb : occHas occ2 s with _ | _
  · rcases hc : occHas occ s with _ | _
    · rfl
    · exact absurd ((occHas_iff_mem_keys occ2 s).mpr
        (h ▸ (occHas_iff_mem_keys occ s).mp hc)) (by simp [hb])
  · exact (occHas_iff_mem_keys occ s).mpr
      (by rw [h]; exact (occHas_iff_mem_keys occ2 s).mp hb)

/-- `occSet` on a key not yet present appends it at the end. -/
theorem occSet_keys_new (occ : Occ) (k : String) (v : Nat)
    (h : occHas occ k = false) :
    (occSet occ k v).map Prod.fst = occ.map Prod.fst ++ [k] := by
  induction occ with
  | nil => simp [occSet]
  | cons e rest ih =>
    have he : ¬(e.1 = k) := by
      intro hk
      simp [occHas, hk] at h
    have h' : occHas rest k = false := by
      have hh : (decide (e.1 = k) || occHas rest k) = false := h
      exact (Bool.or_eq_false_iff.mp hh).2
    simp [occSet, he, ih h']

/-- Main property of the retry loop: with an exit available within the fuel,
the returned slug is not an occupied key, and the key set of `occurrences`
is unchanged by the loop. -/
theorem slugLoop_spec :
    ∀ (fuel : Nat) (occ : Occ) (orig cur : String),
    (cur = orig ∨ occHas occ orig = true) →
    (occHas occ cur = false ∨
      ∃ i, i < fuel ∧ occHas occ (cand orig (occGet occ orig + 1 + i)) = false) →
    occHas (slugLoop fuel occ orig cur).2 (slugLoop fuel occ orig cur).1 = false ∧
    (slugLoop fuel occ orig cur).2.map Prod.fst = occ.map Prod.fst := by
  intro fuel
  induction fuel with
  | zero =>
    intro occ orig cur _ hexit
    rcases hexit with h | ⟨i, hi, _⟩
    · simpa [slugLoop] using h
    · omega
  | succ f ih =>
    intro occ orig cur horig hexit
    by_cases hcur : occHas occ cur = true
    · have horig' : occHas occ orig = true := by
        rcases horig with h | h
        · rwa [h] at hcur
        · exact h
      have hkeys : (occSet occ orig (occGet occ orig + 1)).map Prod.fst
          = occ.map Prod.fst := occSet_keys occ orig _ horig'
      have hhas : ∀ s, occHas (occSet occ orig (occGet occ orig + 1)) s
          = occHas occ s := fun s => occHas_eq_of_keys s hkeys
      rcases hexit with h | ⟨i, hi, hfree⟩
      · rw [h] at hcur; exact absurd hcur (by simp)
      · have hget : occGet (occSet occ orig (occGet occ orig + 1)) orig
            = occGet occ orig + 1 := occGet_occSet_self occ orig _
        have hexit' : occHas (occSet occ orig (occGet occ orig + 1))
              (cand orig (occGet occ orig + 1)) = false ∨
            ∃ j, j < f ∧ occHas (occSet occ orig (occGet occ orig + 1))
              (cand orig (occGet (occSet occ orig (occGet occ orig + 1)) orig + 1 + j))
                = false := by
          rcases i with _ | j
          · left
            rw [hhas]
            simpa using hfree
          · right
            refine ⟨j, by omega, ?_⟩
            rw [hhas, hget]
            have : occGet occ orig + 1 + 1 + j = occGet occ orig + 1 + (j + 1) := by
              omega
            rw [this]
            exact hfree
        have hrec := ih (occSet occ orig (occGet occ orig + 1)) orig
          (cand orig (occGet occ orig + 1))
          (Or.inr (by rw [hhas]; exact horig')) hexit'
        have hstep : slugLoop (f + 1) occ orig cur
            = slugLoop f (occSet occ orig (occGet occ orig + 1)) orig
                (cand orig (occGet occ orig + 1)) := by
          simp [slugLoop, hcur]
        rw [hstep]
        exact ⟨hrec.1, hrec.2.trans hkeys⟩
    · have hstep : slugLoop (f + 1) occ orig cur = (cur, occ) := by
        simp only [slugLoop]
        rw [if_neg hcur]
      rw [hstep]
      exact ⟨by simpa using hcur, rfl⟩

/-- Pigeonhole: among the base slug and the first `occ.length` suffixed
candidates, at least one is unoccupied, so `occ.length + 1` fuel suffices. -/
theorem slug_exit_exists (occ : Occ) (orig : String) :
    occHas occ orig = false ∨
      ∃ i, i < occ.length + 1 ∧
        occHas occ (cand orig (occGet occ orig + 1 + i)) = false := by
  by_contra hcon
  push_neg at hcon
  obtain ⟨_, hall⟩ := hcon
  have hall' : ∀ i, i < occ.length + 1 →
      occHas occ (cand orig (occGet occ orig + 1 + i)) = true := by
    intro i hi
    have := hall i hi
    rcases h : occHas occ (cand orig (occGet occ orig + 1 + i)) with _ | _
    · exact absurd h this
    · rfl
  set c := occGet occ orig with hc
  set L := (List.range (occ.length + 1)).map (fun i => cand orig (c + 1 + i)) with hL
  have hnodup : L.Nodup := by
    refine List.Nodup.map ?_ (List.nodup_range _)
    intro a b hab
    have := cand_injective orig hab
    omega
  have hsub : L.toFinset ⊆ (occ.map Prod.fst).toFinset := by
    intro s hs
    rw [List.mem_toFinset] at hs ⊢
    rw [hL] at hs
    simp only [List.mem_map, List.mem_range] at hs
    obtain ⟨i, hi, rfl⟩ := hs
    exact (occHas_iff_mem_keys occ _).mp (hall' i hi)
  have h1 : L.toFinset.card = occ.length + 1 := by
    rw [List.toFinset_card_of_nodup hnodup]
    simp [hL]
  have h2 : (occ.map Prod.fst).toFinset.card ≤ occ.length := by
    calc (occ.map Prod.fst).toFinset.card ≤ (occ.map Prod.fst).length :=
          List.toFinset_card_le _
      _ = occ.length := by simp
  have := Finset.card_le_card hsub
  omega

/-- Each `slug` call returns a slug that was not yet a key of `occurrences`,
and afterwards the keys are exactly the old keys plus the returned slug. -/
theorem slugOne_spec (occ : Occ) (value : String) :
    occHas occ (slugOne occ value).1 = false ∧
    (slugOne occ value).2.map Prod.fst
      = occ.map Prod.fst ++ [(slugOne occ value).1] := by
  have hspec := slugLoop_spec (occ.length + 1) occ (githubSlug value)
    (githubSlug value) (Or.inl rfl) (slug_exit_exists occ (githubSlug value))
  constructor
  · rw [← @occHas_eq_of_keys _ occ (slugOne occ value).1 hspec.2]
    exact hspec.1
  · show (occSet _ _ 0).map Prod.fst = _
    rw [occSet_keys_new _ _ _ hspec.1, hspec.2]
    rfl

/-- Slugs returned from successive calls on one slugger are pairwise distinct
and never collide with keys already present in the state. -/
theorem sluggerRun_spec :
    ∀ (texts : List String) (occ : Occ),
    (sluggerRun occ texts).Nodup ∧
    ∀ s ∈ sluggerRun occ texts, occHas occ s = false := by
  intro texts
  induction texts with
  | nil => intro occ; simp [sluggerRun]
  | cons h rest ih =>
    intro occ
    obtain ⟨hfresh, hkeys⟩ := slugOne_spec occ h
    obtain ⟨hnodup, hclean⟩ := ih (slugOne occ h).2
    have hmemkeys : ∀ s ∈ sluggerRun (slugOne occ h).2 rest,
        occHas occ s = false ∧ s ≠ (slugOne occ h).1 := by
      intro s hs
      have hfree := hclean s hs
      constructor
      · rcases hb : occHas occ s with _ | _
        · rfl
        · have : s ∈ ((slugOne occ h).2).map Prod.fst := by
            rw [hkeys]
            exact List.mem_append_left _ ((occHas_iff_mem_keys occ s).mp hb)
          exact absurd ((occHas_iff_mem_keys _ s).mpr this) (by simp [hfree])
      · intro hs1
        have : s ∈ ((slugOne occ h).2).map Prod.fst := by
          rw [hkeys, hs1]
          exact List.mem_append_right _ (by simp)
        exact absurd ((occHas_iff_mem_keys _ s).mpr this) (by simp [hfree])
    constructor
    · show ((slugOne occ h).1 :: sluggerRun (slugOne occ h).2 rest).Nodup
      refine List.nodup_cons.mpr ⟨?_, hnodup⟩
      intro hmem
      exact absurd rfl (hmemkeys _ hmem).2.symm
    · intro s hs
      rcases List.mem_cons.mp hs with h1 | h1
      · rw [h1]; exact hfresh
      · exact (hmemkeys s h1).1

/-! ## Model of the mdast / estree trees consumed by the segmenter

`processMdxForSearch` parses MDX into an mdast tree whose top-level children
are prose nodes (`heading`, `paragraph`, ...) or MDX nodes (`mdxjsEsm`,
`mdxJsxFlowElement`, ...).  An `mdxjsEsm` node carries an estree program;
`extractMetaExport` inspects its first statement.  We model exactly the
discriminated shapes the source code tests for. -/

/-- estree literal values (`property.value.value` for a `Literal` node). -/
inductive LitVal where
  | str (s : String)
  | num (n : Int)
  | boolean (b : Bool)
  | regex (source : String)
  | nullLit
  deriving DecidableEq, Repr

/-- JS truthiness of a literal value: `false`, `0`, `""` and `null` are falsy;
a regex object is always truthy. -/
def litTruthy : LitVal → Bool
  | .str s => s ≠ ""
  | .num n => n ≠ 0
  | .boolean b => b
  | .regex _ => true
  | .nullLit => false

/-- A property key: `Identifier` with a name, or anything else
(string/computed key). -/
inductive PropKey where
  | ident (name : String)
  | otherKey
  deriving DecidableEq, Repr

/-- A property value: a `Literal` node, or any non-literal expression. -/
inductive PropVal where
  | lit (v : LitVal)
  | nonLit
  deriving DecidableEq, Repr

/-- One entry of an `ObjectExpression`: a `Property`, or a spread element
(whose `type` is not `'Property'`). -/
inductive ObjProp where
  | property (key : PropKey) (value : PropVal)
  | spreadElement
  deriving DecidableEq, Repr

/-- The initializer of a variable declarator. -/
inductive InitExpr where
  | objectExpr (props : List ObjProp)
  | otherInit
  deriving DecidableEq, Repr

/-- A top-level estree statement.  `exportNamedVar name init` models an
`ExportNamedDeclaration` over a `VariableDeclaration` whose first declarator
has `Identifier` id `name` (`none` when the id is a pattern) and initializer
`init` (`none` when absent). -/
inductive EstreeStmt where
  | exportNamedVar (declName : Option String) (init : Option InitExpr)
  | otherStmt
  deriving DecidableEq, Repr

/-- A top-level mdast node. -/
inductive MdNode where
  | heading (depth : Nat) (text : String)
  | paragraph (text : String)
  | codeBlock (text : String)
  | listBlock (text : String)
  | mdxjsEsm (body : List EstreeStmt)
  | mdxJsxFlowElement
  | mdxJsxTextElement
  | mdxFlowExpression
  | mdxTextExpression
  deriving DecidableEq, Repr

/-- The node types removed by
`filter(mdxTree, (node) => !['mdxjsEsm', ...].includes(node.type))`. -/
def isMdxNode : MdNode → Bool
  | .mdxjsEsm _ => true
  | .mdxJsxFlowElement => true
  | .mdxJsxTextElement => true
  | .mdxFlowExpression => true
  | .mdxTextExpression => true
  | _ => false

/-- The `node.type === 'heading'` predicate. -/
def isHeading : MdNode → Bool
  | .heading _ _ => true
  | _ => false

/-- `mdast-util-to-string` on a heading node: its flattened text. -/
def headingText : MdNode → Option String
  | .heading _ t => some t
  | _ => none

/-- `mdast-util-to-markdown` for a single node (markdown rendering). -/
def renderNode : MdNode → String
  | .heading d t => String.mk (List.replicate d '#') ++ " " ++ t ++ "\n"
  | .paragraph t => t ++ "\n"
  | .codeBlock t => t ++ "\n"
  | .listBlock t => t ++ "\n"
  | .mdxjsEsm _ => ""
  | .mdxJsxFlowElement => ""
  | .mdxJsxTextElement => ""
  | .mdxFlowExpression => ""
  | .mdxTextExpression => ""

/-- `toMarkdown(tree)`: render the tree's children in order. -/
def toMarkdownTree (nodes : List MdNode) : String :=
  String.join (nodes.map renderNode)

/-! ## Metadata extraction (`getObjectFromExpression`, `extractMetaExport`) -/

/-- The extracted metadata object: keys in insertion order, each mapped to a
retained literal or to `undefined`. -/
abbrev Meta := List (String × Option LitVal)

/-- JS `{...object, [key]: value}`: an existing key keeps its position and is
overwritten, a new key is appended. -/
def metaSet : Meta → String → Option LitVal → Meta
  | [], k, v => [(k, v)]
  | e :: rest, k, v =>
    if e.1 = k then (k, v) :: rest else e :: metaSet rest k v

/-- `getObjectFromExpression`: fold the object's properties, skipping
non-`Property` entries and non-`Identifier` (or empty-named) keys; the stored
value is the literal's value when it is truthy, else `undefined`
(`(property.value.type === 'Literal' && property.value.value) || undefined`). -/
def getObjectFromExpression (props : List ObjProp) : Meta :=
  props.foldl
    (fun object property =>
      match property with
      | .spreadElement => object
      | .property k v =>
        let key : Option String :=
          match k with
          | .ident name => if name = "" then none else some name
          | .otherKey => none
        let value : Option LitVal :=
          match v with
          | .lit l => if litTruthy l then some l else none
          | .nonLit => none
        match key with
        | none => object
        | some kk => metaSet object kk value)
    []

/-- The predicate of `mdxTree.children.find(...)`: an `mdxjsEsm` node whose
first estree statement is `export const meta = ...`. -/
def isMetaExportNode : MdNode → Bool
  | .mdxjsEsm body =>
    match body.head? with
    | some (.exportNamedVar (some nm) _) => nm = "meta"
    | _ => false
  | _ => false

/-- `extractMetaExport`: find the first `export const meta` node; return its
object literal's extracted mapping, or `undefined` when the node is absent or
its initializer is not an `ObjectExpression`. -/
def extractMetaExport (nodes : List MdNode) : Option Meta :=
  match nodes.find? isMetaExportNode with
  | none => none
  | some (.mdxjsEsm body) =>
    match body.head? with
    | some (.exportNamedVar _ (some (.objectExpr props))) =>
      some (getObjectFromExpression props)
    | _ => none
  | some _ => none

/-! ## Tree splitting (`splitTreeBy`) and section building -/

/-- `splitTreeBy`: reduce over the children; a node starts a new tree when
there is no tree yet or the predicate holds, otherwise it is pushed onto the
last tree. -/
def splitTreeBy (p : MdNode → Bool) (nodes : List MdNode) : List (List MdNode) :=
  nodes.foldl
    (fun trees node =>
      match trees.getLast? with
      | none => trees ++ [[node]]
      | some lastTree =>
        if p node then trees ++ [[node]]
        else trees.dropLast ++ [lastTree ++ [node]])
    []

/-- Recursive characterization of the fold: `splitRun p t nodes` is the list
of finished trees given the currently open tree `t`. -/
def splitRun (p : MdNode → Bool) (t : List MdNode) : List MdNode → List (List MdNode)
  | [] => [t]
  | n :: rest =>
    if p n then t :: splitRun p [n] rest
    else splitRun p (t ++ [n]) rest

/-- A section of a processed document. -/
structure DocSection where
  content : String
  heading : Option String
  slug : Option String
  deriving DecidableEq, Repr

/-- The `sectionTrees.map(...)` step: heading text of the first node (when it
is a heading), a slug drawn from the shared slugger, and the markdown
rendering as content.  The source computes
`heading ? slugger.slug(heading) : undefined`, a JS truthiness test: a
heading whose flattened text is the empty string is falsy, so its section
keeps `slug = undefined` and the slugger is not called (its state does not
advance). -/
def sectionsLoop (occ : Occ) : List (List MdNode) → List DocSection
  | [] => []
  | tree :: rest =>
    match tree.head? with
    | some (.heading _ t) =>
      if t = "" then
        ⟨toMarkdownTree tree, some t, none⟩ :: sectionsLoop occ rest
      else
        let p := slugOne occ t
        ⟨toMarkdownTree tree, some t, some p.1⟩ :: sectionsLoop p.2 rest
    | _ =>
      ⟨toMarkdownTree tree, none, none⟩ :: sectionsLoop occ rest

/-- The tree-level part of `processMdxForSearch`: extract the meta export,
strip MDX nodes, split at headings, and build sections with a fresh slugger.
(The checksum is computed over the raw text before parsing and is carried
separately.) -/
def processTreeForSearch (nodes : List MdNode) : Option Meta × List DocSection :=
  let meta := extractMetaExport nodes
  let mdNodes := nodes.filter (fun n => !isMdxNode n)
  let sectionTrees := splitTreeBy isHeading mdNodes
  (meta, sectionsLoop [] sectionTrees)

/-- The slugs of a processed document's sections, in order. -/
def docSlugs (nodes : List MdNode) : List String :=
  (processTreeForSearch nodes).2.filterMap (fun s => s.slug)

/-- The heading texts of a node list, in order. -/
def headingTexts (nodes : List MdNode) : List String :=
  nodes.filterMap headingText

/-! ### `splitTreeBy` lemmas -/

theorem splitTreeBy_nil (p : MdNode → Bool) : splitTreeBy p [] = [] := rfl

theorem splitTreeBy_foldl (p : MdNode → Bool) :
    ∀ (ns : List MdNode) (ts : List (List MdNode)) (t : List MdNode),
    List.foldl
      (fun trees node =>
        match trees.getLast? with
        | none => trees ++ [[node]]
        | some lastTree =>
          if p node then trees ++ [[node]]
          else trees.dropLast ++ [lastTree ++ [node]])
      (ts ++ [t]) ns = ts ++ splitRun p t ns := by
  intro ns
  induction ns with
  | nil => intro ts t; simp [splitRun]
  | cons n rest ih =>
    intro ts t
    rw [List.foldl_cons]
    have hlast : (ts ++ [t]).getLast? = some t := by
      simp [List.getLast?_concat]
    by_cases hp : p n = true
    · have hstep :
          (match (ts ++ [t]).getLast? with
            | none => (ts ++ [t]) ++ [[n]]
            | some lastTree =>
              if p n then (ts ++ [t]) ++ [[n]]
              else (ts ++ [t]).dropLast ++ [lastTree ++ [n]])
          = (ts ++ [t]) ++ [[n]] := by
        rw [hlast]
        simp [hp]
      rw [hstep, ih ((ts ++ [t])) [n]]
      simp [splitRun, hp]
    · have hstep :
          (match (ts ++ [t]).getLast? with
            | none => (ts ++ [t]) ++ [[n]]
            | some lastTree =>
              if p n then (ts ++ [t]) ++ [[n]]
              else (ts ++ [t]).dropLast ++ [lastTree ++ [n]])
          = ts ++ [t ++ [n]] := by
        rw [hlast]
        simp [hp, List.dropLast_concat]
      rw [hstep, ih ts (t ++ [n])]
      simp [splitRun, hp]

theorem splitTreeBy_cons (p : MdNode → Bool) (n : MdNode) (ns : List MdNode) :
    splitTreeBy p (n :: ns) = splitRun p [n] ns := by
  show List.foldl _ ([] ++ [[n]]) ns = splitRun p [n] ns
  exact splitTreeBy_foldl p ns [] [n]

/-- Concatenating the split trees in order restores the node list. -/
theorem splitRun_join (p : MdNode → Bool) :
    ∀ (ns : List MdNode) (t : List MdNode),
    (splitRun p t ns).flatten = t ++ ns := by
  intro ns
  induction ns with
  | nil => intro t; simp [splitRun]
  | cons n rest ih =>
    intro t
    by_cases hp : p n = true
    · simp [splitRun, hp, ih]
    · simp [splitRun, hp, ih]

/-- Every split tree is non-empty (when the open tree is). -/
theorem splitRun_ne_nil (p : MdNode → Bool) :
    ∀ (ns : List MdNode) (t : List MdNode), t ≠ [] →
    ∀ g ∈ splitRun p t ns, g ≠ [] := by
  intro ns
  induction ns with
  | nil =>
    intro t ht g hg
    simp [splitRun] at hg
    rwa [hg]
  | cons n rest ih =>
    intro t ht g hg
    by_cases hp : p n = true
    · simp only [splitRun, hp, if_true] at hg
      rcases List.mem_cons.mp hg with h | h
      · rwa [h]
      · exact ih [n] (by simp) g h
    · simp only [splitRun, hp, if_false] at hg
      exact ih (t ++ [n]) (by simp) g hg

/-- Only the head of a split tree can satisfy the predicate. -/
theorem splitRun_tail_not (p : MdNode → Bool) :
    ∀ (ns : List MdNode) (t : List MdNode),
    (∀ x ∈ t.tail, p x = false) →
    ∀ g ∈ splitRun p t ns, ∀ x ∈ g.tail, p x = false := by
  intro ns
  induction ns with
  | nil =>
    intro t ht g hg
    simp [splitRun] at hg
    rwa [hg]
  | cons n rest ih =>
    intro t ht g hg
    by_cases hp : p n = true
    · simp only [splitRun, hp, if_true] at hg
      rcases List.mem_cons.mp hg with h | h
      · rw [h]; exact ht
      · exact ih [n] (by simp) g h
    · simp only [splitRun, hp, if_false] at hg
      refine ih (t ++ [n]) ?_ g hg
      intro x hx
      rcases t with _ | ⟨t0, ts⟩
      · simp at hx
      · simp only [List.cons_append, List.tail_cons] at hx
        rcases List.mem_append.mp hx with h | h
        · exact ht x (by simpa using h)
        · rw [List.mem_singleton.mp h]
          simpa using hp
/-- If the open tree starts with a `p`-node, every split tree does. -/
theorem splitRun_heads (p : MdNode → Bool) :
    ∀ (ns : List MdNode) (t : List MdNode),
    (∃ hd tl, t = hd :: tl ∧ p hd = true) →
    ∀ g ∈ splitRun p t ns, ∃ hd tl, g = hd :: tl ∧ p hd = true := by
  intro ns
  induction ns with
  | nil =>
    intro t ht g hg
    simp [splitRun] at hg
    rwa [hg]
  | cons n rest ih =>
    intro t ht g hg
    by_cases hp : p n = true
    · simp only [splitRun, hp, if_true] at hg
      rcases List.mem_cons.mp hg with h | h
      · rw [h]; exact ht
      · exact ih [n] ⟨n, [], rfl, hp⟩ g h
    · simp only [splitRun, hp, if_false] at hg
      obtain ⟨hd, tl, hteq, hphd⟩ := ht
      exact ih (t ++ [n]) ⟨hd, tl ++ [n], by rw [hteq]; simp, hphd⟩ g hg

/-- Every split tree other than the first starts with a `p`-node. -/
theorem splitRun_drop_one (p : MdNode → Bool) :
    ∀ (ns : List MdNode) (t : List MdNode),
    ∀ g ∈ (splitRun p t ns).drop 1, ∃ hd tl, g = hd :: tl ∧ p hd = true := by
  intro ns
  induction ns with
  | nil => intro t g hg; simp [splitRun] at hg
  | cons n rest ih =>
    intro t g hg
    by_cases hp : p n = true
    · simp only [splitRun, hp, if_true, List.drop_one, List.tail_cons] at hg
      exact splitRun_heads p rest [n] ⟨n, [], rfl, hp⟩ g hg
    · simp only [splitRun, hp, if_false] at hg
      exact ih (t ++ [n]) g hg

/-- With no `p`-node in the input, everything stays in the single open tree. -/
theorem splitRun_no_p (p : MdNode → Bool) :
    ∀ (ns : List MdNode) (t : List MdNode),
    (∀ x ∈ ns, p x = false) →
    splitRun p t ns = [t ++ ns] := by
  intro ns
  induction ns with
  | nil => intro t _; simp [splitRun]
  | cons n rest ih =>
    intro t hnone
    have hp : p n = false := hnone n (by simp)
    simp only [splitRun, hp, if_false]
    rw [ih (t ++ [n]) (fun x hx => hnone x (by simp [hx]))]
    simp

/-! ### Section-building lemmas -/

/-- The heading text contributed by a tree's first node. -/
def headStr (t : List MdNode) : Option String :=
  t.head?.bind headingText

/-- The heading sequence read off the split trees' heads. -/
def treesHeads (trees : List (List MdNode)) : List String :=
  trees.filterMap headStr

theorem headStr_append_single (t : List MdNode) (n : MdNode)
    (hn : isHeading n = false) : headStr (t ++ [n]) = headStr t := by
  rcases t with _ | ⟨t0, ts⟩
  · cases n <;> simp_all [headStr, headingText, isHeading]
  · simp [headStr]

theorem treesHeads_cons (t : List MdNode) (ts : List (List MdNode)) :
    treesHeads (t :: ts) = (headStr t).toList ++ treesHeads ts := by
  rcases hh : headStr t with _ | s <;>
    simp [treesHeads, List.filterMap_cons, hh]

theorem headingTexts_cons (n : MdNode) (ns : List MdNode) :
    headingTexts (n :: ns) = (headingText n).toList ++ headingTexts ns := by
  rcases hh : headingText n with _ | s <;>
    simp [headingTexts, List.filterMap_cons, hh]

theorem treesHeads_splitRun :
    ∀ (ns : List MdNode) (t : List MdNode),
    treesHeads (splitRun isHeading t ns) = (headStr t).toList ++ headingTexts ns := by
  intro ns
  induction ns with
  | nil =>
    intro t
    rw [show splitRun isHeading t [] = [t] from rfl, treesHeads_cons]
    simp [treesHeads, headingTexts]
  | cons n rest ih =>
    intro t
    by_cases hp : isHeading n = true
    · rw [show splitRun isHeading t (n :: rest)
            = t :: splitRun isHeading [n] rest from by simp [splitRun, hp]]
      rw [treesHeads_cons, ih [n], headingTexts_cons]
      have h1 : headStr [n] = headingText n := by simp [headStr]
      rw [h1]
    · have hp' : isHeading n = false := by
        rcases h : isHeading n with _ | _
        · rfl
        · exact absurd h hp
      rw [show splitRun isHeading t (n :: rest)
            = splitRun isHeading (t ++ [n]) rest from by simp [splitRun, hp']]
      rw [ih (t ++ [n]), headStr_append_single t n hp', headingTexts_cons]
      have hn : headingText n = none := by
        cases n <;> simp_all [headingText, isHeading]
      rw [hn]
      simp

theorem sectionsLoop_cons_none (occ : Occ) (tree : List MdNode)
    (rest : List (List MdNode)) (h : headStr tree = none) :
    sectionsLoop occ (tree :: rest)
      = ⟨toMarkdownTree tree, none, none⟩ :: sectionsLoop occ rest := by
  rcases hh : tree.head? with _ | n
  · simp [sectionsLoop, hh]
  · cases n <;> simp_all [sectionsLoop, hh, headStr, headingText]

/-- A section headed by an empty-text heading keeps `slug = undefined` and
leaves the slugger untouched (the source's truthiness test). -/
theorem sectionsLoop_cons_some_empty (occ : Occ) (tree : List MdNode)
    (rest : List (List MdNode)) (d : Nat)
    (h : tree.head? = some (.heading d "")) :
    sectionsLoop occ (tree :: rest)
      = ⟨toMarkdownTree tree, some "", none⟩ :: sectionsLoop occ rest := by
  simp [sectionsLoop, h]

theorem sectionsLoop_cons_some (occ : Occ) (tree : List MdNode)
    (rest : List (List MdNode)) (d : Nat) (s : String)
    (h : tree.head? = some (.heading d s)) (hs : s ≠ "") :
    sectionsLoop occ (tree :: rest)
      = ⟨toMarkdownTree tree, some s, some (slugOne occ s).1⟩
          :: sectionsLoop (slugOne occ s).2 rest := by
  simp [sectionsLoop, h, hs]

/-- The slug sequence of the built sections is the slugger run over the
truthy (non-empty) heading texts of the trees' heads. -/
theorem sectionsLoop_slugs :
    ∀ (trees : List (List MdNode)) (occ : Occ),
    (sectionsLoop occ trees).filterMap (fun s => s.slug)
      = sluggerRun occ ((treesHeads trees).filter (fun t => t ≠ "")) := by
  intro trees
  induction trees with
  | nil => intro occ; simp [sectionsLoop, treesHeads, sluggerRun]
  | cons tree rest ih =>
    intro occ
    rcases hh : tree.head? with _ | n
    · rw [sectionsLoop_cons_none occ tree rest (by simp [headStr, hh]),
        treesHeads_cons, show headStr tree = none from by simp [headStr, hh]]
      simpa [List.filterMap_cons] using ih occ
    · cases n with
      | heading d s =>
        by_cases hs : s = ""
        · subst hs
          rw [sectionsLoop_cons_some_empty occ tree rest d hh, treesHeads_cons,
            show headStr tree = some "" from by simp [headStr, hh, headingText]]
          simpa [List.filterMap_cons, List.filter_cons] using ih occ
        · rw [sectionsLoop_cons_some occ tree rest d s hh hs, treesHeads_cons,
            show headStr tree = some s from by simp [headStr, hh, headingText]]
          simp [List.filterMap_cons, List.filter_cons, hs, ih, sluggerRun]
      | paragraph s =>
        rw [sectionsLoop_cons_none occ tree rest
            (by simp [headStr, hh, headingText]), treesHeads_cons,
          show headStr tree = none from by simp [headStr, hh, headingText]]
        simpa [List.filterMap_cons] using ih occ
      | codeBlock s =>
        rw [sectionsLoop_cons_none occ tree rest
            (by simp [headStr, hh, headingText]), treesHeads_cons,
          show headStr tree = none from by simp [headStr, hh, headingText]]
        simpa [List.filterMap_cons] using ih occ
      | listBlock s =>
        rw [sectionsLoop_cons_none occ tree rest
            (by simp [headStr, hh, headingText]), treesHeads_cons,
          show headStr tree = none from by simp [headStr, hh, headingText]]
        simpa [List.filterMap_cons] using ih occ
      | mdxjsEsm b =>
        rw [sectionsLoop_cons_none occ tree rest
            (by simp [headStr, hh, headingText]), treesHeads_cons,
          show headStr tree = none from by simp [headStr, hh, headingText]]
        simpa [List.filterMap_cons] using ih occ
      | mdxJsxFlowElement =>
        rw [sectionsLoop_cons_none occ tree rest
            (by simp [headStr, hh, headingText]), treesHeads_cons,
          show headStr tree = none from by simp [headStr, hh, headingText]]
        simpa [List.filterMap_cons] using ih occ
      | mdxJsxTextElement =>
        rw [sectionsLoop_cons_none occ tree rest
            (by simp [headStr, hh, headingText]), treesHeads_cons,
          show headStr tree = none from by simp [headStr, hh, headingText]]
        simpa [List.filterMap_cons] using ih occ
      | mdxFlowExpression =>
        rw [sectionsLoop_cons_none occ tree rest
            (by simp [headStr, hh, headingText]), treesHeads_cons,
          show headStr tree = none from by simp [headStr, hh, headingText]]
        simpa [List.filterMap_cons] using ih occ
      | mdxTextExpression =>
        rw [sectionsLoop_cons_none occ tree rest
            (by simp [headStr, hh, headingText]), treesHeads_cons,
          show headStr tree = none from by simp [headStr, hh, headingText]]
        simpa [List.filterMap_cons] using ih occ

/-- Contents and headings of the built sections, tree by tree. -/
theorem sectionsLoop_pair :
    ∀ (trees : List (List MdNode)) (occ : Occ),
    (sectionsLoop occ trees).map (fun s => (s.content, s.heading))
      = trees.map (fun t => (toMarkdownTree t, headStr t)) := by
  intro trees
  induction trees with
  | nil => intro occ; simp [sectionsLoop]
  | cons tree rest ih =>
    intro occ
    rcases hh : tree.head? with _ | n
    · rw [sectionsLoop_cons_none occ tree rest (by simp [headStr, hh])]
      simp only [List.map_cons, ih]
      simp [headStr, hh]
    · cases n with
      | heading d s =>
        by_cases hs : s = ""
        · subst hs
          rw [sectionsLoop_cons_some_empty occ tree rest d hh]
          simp only [List.map_cons, ih]
          simp [headStr, hh, headingText]
        · rw [sectionsLoop_cons_some occ tree rest d s hh hs]
          simp only [List.map_cons, ih]
          simp [headStr, hh, headingText]
      | paragraph s =>
        rw [sectionsLoop_cons_none occ tree rest (by simp [headStr, hh, headingText])]
        simp only [List.map_cons, ih]
        simp [headStr, hh, headingText]
      | codeBlock s =>
        rw [sectionsLoop_cons_none occ tree rest (by simp [headStr, hh, headingText])]
        simp only [List.map_cons, ih]
        simp [headStr, hh, headingText]
      | listBlock s =>
        rw [sectionsLoop_cons_none occ tree rest (by simp [headStr, hh, headingText])]
        simp only [List.map_cons, ih]
        simp [headStr, hh, headingText]
      | mdxjsEsm b =>
        rw [sectionsLoop_cons_none occ tree rest (by simp [headStr, hh, headingText])]
        simp only [List.map_cons, ih]
        simp [headStr, hh, headingText]
      | mdxJsxFlowElement =>
        rw [sectionsLoop_cons_none occ tree rest (by simp [headStr, hh, headingText])]
        simp only [List.map_cons, ih]
        simp [headStr, hh, headingText]
      | mdxJsxTextElement =>
        rw [sectionsLoop_cons_none occ tree rest (by simp [headStr, hh, headingText])]
        simp only [List.map_cons, ih]
        simp [headStr, hh, headingText]
      | mdxFlowExpression =>
        rw [sectionsLoop_cons_none occ tree rest (by simp [headStr, hh, headingText])]
        simp only [List.map_cons, ih]
        simp [headStr, hh, headingText]
      | mdxTextExpression =>
        rw [sectionsLoop_cons_none occ tree rest (by simp [headStr, hh, headingText])]
        simp only [List.map_cons, ih]
        simp [headStr, hh, headingText]

/-! ## Content discovery (`walk` and `walkGithubDirectory`)

The remote content tree is modelled as a finite tree of named files and
directories; listing a directory yields its children.  `walk` classifies
every listed entry (ignored directory / ignored file / directory / eligible
file), prunes ignored entries before recursing, collects eligible `.md`/
`.mdx` files, and sorts each directory's flattened result by path. -/

/-- `config.ts`: `ignoredDirectories`. -/
def ignoredDirectories : List String := ["03-pages"]

/-- `config.ts`: `ignoredFiles`. -/
def ignoredFiles : List String := ["_app.mdx", "_document.mdx", "_error.mdx"]

/-- A discovered content entry. -/
structure WalkEntry where
  path : String
  parentPath : Option String
  deriving DecidableEq, Repr

/-- A node of the remote content tree. -/
inductive FsEntry where
  | file (name : String)
  | dir (name : String) (children : List FsEntry)

/-- `/\.mdx?$/.test(name)`. -/
def hasMdxExt (name : String) : Bool :=
  strDropIs name ".mdx" || strDropIs name ".md"

/-- Lexicographic comparison on character lists (the order underlying
`localeCompare` for the plain ASCII paths of this content tree). -/
def lexLe : List Char → List Char → Bool
  | [], _ => true
  | _ :: _, [] => false
  | a :: as, b :: bs => if a < b then true else if a = b then lexLe as bs else false

/-- Insert an entry into a path-sorted list. -/
def insertSorted (e : WalkEntry) : List WalkEntry → List WalkEntry
  | [] => [e]
  | x :: xs =>
    if lexLe e.path.data x.path.data then e :: x :: xs
    else x :: insertSorted e xs

/-- `entries.sort((a, b) => a.path.localeCompare(b.path))`: a comparison
sort by path (insertion sort; the source's sort only fixes the order, which
none of the properties below depend on beyond membership). -/
def sortByPath (l : List WalkEntry) : List WalkEntry :=
  l.foldr insertSorted []

theorem mem_insertSorted (e x : WalkEntry) :
    ∀ l, x ∈ insertSorted e l ↔ x = e ∨ x ∈ l := by
  intro l
  induction l with
  | nil => simp [insertSorted]
  | cons a l ih =>
    by_cases h : lexLe e.path.data a.path.data = true
    · simp [insertSorted, h]
    · simp only [insertSorted, h, Bool.false_eq_true, if_false, List.mem_cons, ih]
      tauto

theorem mem_sortByPath (x : WalkEntry) :
    ∀ l, x ∈ sortByPath l ↔ x ∈ l := by
  intro l
  induction l with
  | nil => simp [sortByPath]
  | cons a l ih =>
    show x ∈ insertSorted a (sortByPath l) ↔ _
    rw [mem_insertSorted]
    simp only [List.mem_cons]
    rw [ih]

mutual

/-- Processing of one listed entry inside `walk(dir, parentPath)` of
`part_000` / `githubUtils.ts`: ignored entries yield nothing, directories
recurse with the `parentPath` argument passed through unchanged, eligible
files yield one entry tagged with that same `parentPath`. -/
def walkOne (dirPath : String) (parentPath : Option String) :
    FsEntry → List WalkEntry
  | .dir name children =>
    if name ∈ ignoredDirectories then []
    else sortByPath (walkList (pathJoin dirPath name) parentPath children)
  | .file name =>
    if name ∈ ignoredFiles then []
    else if hasMdxExt name then [⟨pathJoin dirPath name, parentPath⟩]
    else []

/-- The flattening of per-entry results over one directory listing. -/
def walkList (dirPath : String) (parentPath : Option String) :
    List FsEntry → List WalkEntry
  | [] => []
  | e :: rest => walkOne dirPath parentPath e ++ walkList dirPath parentPath rest

end

/-- `walk(dir, parentPath)` over the listing of `dir`. -/
def walkFs (dirPath : String) (parentPath : Option String)
    (listing : List FsEntry) : List WalkEntry :=
  sortByPath (walkList dirPath parentPath listing)

mutual

/-- Processing of one listed entry inside `walkGithubDirectory(dir)` of
`part_001`: eligible files are tagged with the listing directory `dir`
itself, i.e. their immediate parent directory. -/
def walkGOne (dirPath : String) : FsEntry → List WalkEntry
  | .dir name children =>
    if name ∈ ignoredDirectories then []
    else sortByPath (walkGList (pathJoin dirPath name) children)
  | .file name =>
    if name ∈ ignoredFiles then []
    else if hasMdxExt name then [⟨pathJoin dirPath name, some dirPath⟩]
    else []

def walkGList (dirPath : String) : List FsEntry → List WalkEntry
  | [] => []
  | e :: rest => walkGOne dirPath e ++ walkGList dirPath rest

end

/-- `walkGithubDirectory(dir)` over the listing of `dir`. -/
def walkGFs (dirPath : String) (listing : List FsEntry) : List WalkEntry :=
  sortByPath (walkGList dirPath listing)

/-! ### Discovery lemmas -/

theorem walkList_append (dirPath : String) (pp : Option String) :
    ∀ (l1 l2 : List FsEntry),
    walkList dirPath pp (l1 ++ l2)
      = walkList dirPath pp l1 ++ walkList dirPath pp l2 := by
  intro l1
  induction l1 with
  | nil => intro l2; simp [walkList]
  | cons e rest ih =>
    intro l2
    show walkOne dirPath pp e ++ walkList dirPath pp (rest ++ l2) = _
    rw [ih l2]
    simp [walkList]

mutual

/-- Every entry found by `walk` carries the `parentPath` handed to the call
that started the recursion — the argument is threaded through unchanged. -/
theorem walkOne_parent (dirPath : String) (pp : Option String) (f : FsEntry) :
    ∀ e ∈ walkOne dirPath pp f, e.parentPath = pp := by
  cases f with
  | file name =>
    intro e he
    rw [walkOne] at he
    by_cases h1 : name ∈ ignoredFiles
    · rw [if_pos h1] at he
      simp at he
    · rw [if_neg h1] at he
      by_cases h2 : hasMdxExt name = true
      · rw [if_pos h2] at he
        rw [List.mem_singleton.mp he]
      · rw [if_neg h2] at he
        simp at he
  | dir name children =>
    intro e he
    rw [walkOne] at he
    by_cases h1 : name ∈ ignoredDirectories
    · rw [if_pos h1] at he
      simp at he
    · rw [if_neg h1] at he
      rw [mem_sortByPath] at he
      exact walkList_parent (pathJoin dirPath name) pp children e he

theorem walkList_parent (dirPath : String) (pp : Option String)
    (entries : List FsEntry) :
    ∀ e ∈ walkList dirPath pp entries, e.parentPath = pp := by
  cases entries with
  | nil =>
    intro e he
    rw [walkList] at he
    simp at he
  | cons f rest =>
    intro e he
    rw [walkList] at he
    rcases List.mem_append.mp he with h | h
    · exact walkOne_parent dirPath pp f e h
    · exact walkList_parent dirPath pp rest e h

end

mutual

/-- Every entry found by `walkGithubDirectory` is tagged with the directory
whose listing contained the file, i.e. its immediate parent directory. -/
theorem walkGOne_parent (dirPath : String) (f : FsEntry) :
    ∀ e ∈ walkGOne dirPath f,
      ∃ d nm, e.parentPath = some d ∧ e.path = pathJoin d nm ∧
        hasMdxExt nm = true := by
  cases f with
  | file name =>
    intro e he
    rw [walkGOne] at he
    by_cases h1 : name ∈ ignoredFiles
    · rw [if_pos h1] at he
      simp at he
    · rw [if_neg h1] at he
      by_cases h2 : hasMdxExt name = true
      · rw [if_pos h2] at he
        rw [List.mem_singleton.mp he]
        exact ⟨dirPath, name, rfl, rfl, h2⟩
      · rw [if_neg h2] at he
        simp at he
  | dir name children =>
    intro e he
    rw [walkGOne] at he
    by_cases h1 : name ∈ ignoredDirectories
    · rw [if_pos h1] at he
      simp at he
    · rw [if_neg h1] at he
      rw [mem_sortByPath] at he
      exact walkGList_parent (pathJoin dirPath name) children e he

theorem walkGList_parent (dirPath : String) (entries : List FsEntry) :
    ∀ e ∈ walkGList dirPath entries,
      ∃ d nm, e.parentPath = some d ∧ e.path = pathJoin d nm ∧
        hasMdxExt nm = true := by
  cases entries with
  | nil =>
    intro e he
    rw [walkGList] at he
    simp at he
  | cons f rest =>
    intro e he
    rw [walkGList] at he
    rcases List.mem_append.mp he with h | h
    · exact walkGOne_parent dirPath f e h
    · exact walkGList_parent dirPath rest e h

end

/-! ## The persistent store and the reconciliation loop (`generateEmbeddings`)

We model the two tables `nods_page` / `nods_page_section` and the per-source
body of the loop in `part_000`'s `generateEmbeddings` (the richer variant the
spec follows): fetch the existing page by path, skip or relink on checksum
match, otherwise delete old sections, upsert the page with a cleared
checksum, embed and insert each section in order, and set the checksum only
after every section is stored.  Failures of the embedding collaborator and
of per-section inserts are modelled explicitly; a failure aborts the page
mid-way, exactly like the `throw` inside the loop. -/

/-- A row of `nods_page`.  (`pageType` models the `type` column.) -/
structure PageRecord where
  id : Nat
  path : String
  checksum : Option String
  pageType : String
  source : String
  meta : Option Meta
  parentPageId : Option Nat
  deriving DecidableEq, Repr

/-- A row of `nods_page_section`. -/
structure SectionRecord where
  pageId : Nat
  slug : Option String
  heading : Option String
  content : String
  tokenCount : Nat
  embedding : List Int
  deriving DecidableEq, Repr

/-- The store: both tables plus the id sequence. -/
structure Store where
  pages : List PageRecord
  sections : List SectionRecord
  nextId : Nat
  deriving DecidableEq, Repr

/-- `select ... .filter('path','eq',path).maybeSingle()`. -/
def findPageByPath (st : Store) (p : String) : Option PageRecord :=
  st.pages.find? (fun r => r.path = p)

/-- Resolution of the joined `parentPage:parent_page_id(id, path)` record. -/
def findPageById (st : Store) (i : Nat) : Option PageRecord :=
  st.pages.find? (fun r => r.id = i)

/-- Parent lookup `.filter('path','eq',parentPath)` — an absent `parentPath`
matches no row. -/
def findPageByOptPath (st : Store) : Option String → Option PageRecord
  | none => none
  | some p => findPageByPath st p

/-- `delete().filter('page_id','eq',pid)` on `nods_page_section`. -/
def deleteSectionsFor (st : Store) (pid : Nat) : Store :=
  { st with sections := st.sections.filter (fun s => s.pageId ≠ pid) }

/-- `insert(...)` on `nods_page_section`. -/
def insertSection (st : Store) (sec : SectionRecord) : Store :=
  { st with sections := st.sections ++ [sec] }

/-- `update({parent_page_id: ...}).filter('id','eq',pid)` on `nods_page`. -/
def updateParentLink (st : Store) (pid : Nat) (parent : Option Nat) : Store :=
  { st with
    pages := st.pages.map
      (fun p => if p.id = pid then { p with parentPageId := parent } else p) }

/-- `update({checksum}).filter('id','eq',pid)` on `nods_page`. -/
def setChecksum (st : Store) (pid : Nat) (c : String) : Store :=
  { st with
    pages := st.pages.map
      (fun p => if p.id = pid then { p with checksum := some c } else p) }

/-- The result of `processMdxForSearch` for one document (`load()`'s value);
the checksum is the digest of the raw text. -/
structure ProcessedMdx where
  checksum : String
  meta : Option Meta
  sections : List DocSection
  deriving DecidableEq, Repr

/-- One `EmbeddingSource` as the loop consumes it: identity fields plus the
outcome of `load()` (`none` models a fetch/parse failure that throws). -/
structure SrcInput where
  source : String
  pageType : String
  path : String
  parentPath : Option String
  loadResult : Option ProcessedMdx
  deriving DecidableEq, Repr

/-- `GithubEmbeddingSource`'s constructor: strips the `docs` path head and
the `.md`/`.mdx` extension from both the file path and the parent path. -/
def mkGithubSource (source filePath : String) (parentFilePath : Option String)
    (loadResult : Option ProcessedMdx) : SrcInput :=
  { source := source
    pageType := "github"
    path := normalizeGithubPath filePath
    parentPath := parentFilePath.map normalizeGithubPath
    loadResult := loadResult }

/-- `upsert({checksum: null, path, type, source, meta, parent_page_id},
{onConflict: 'path'}).select().single()`: update the path-matching row in
place (clearing its checksum) or insert a fresh row; returns the row. -/
def upsertPage (st : Store) (s : SrcInput) (meta : Option Meta)
    (parentId : Option Nat) : Store × PageRecord :=
  match findPageByPath st s.path with
  | some q =>
    let q' : PageRecord :=
      { q with checksum := none, pageType := s.pageType, source := s.source,
               meta := meta, parentPageId := parentId }
    ({ st with pages := st.pages.map (fun p => if p.path = s.path then q' else p) },
     q')
  | none =>
    let q : PageRecord :=
      ⟨st.nextId, s.path, none, s.pageType, s.source, meta, parentId⟩
    ({ st with pages := st.pages ++ [q], nextId := st.nextId + 1 }, q)

/-- The embedding collaborator: from the newline-stripped input to an
embedding vector and a total token count, or `none` for an explicit failure
(non-200 response / thrown error). -/
abbrev Embedder := String → Option (List Int × Nat)

/-- Result of the per-section loop. -/
structure LoopRes where
  store : Store
  calls : Nat
  failed : Option Nat
  deriving DecidableEq, Repr

/-- The `for (const {slug, heading, content} of sections)` loop: embed the
section's content (newlines replaced by spaces), then insert the section row;
an embedding failure or a failing insert (`insertFail` at that index) throws
out of the loop, leaving the rows inserted so far. -/
def sectionLoop (embed : Embedder) (insertFail : Nat → Bool) (pid : Nat) :
    Nat → List DocSection → Store → LoopRes
  | _, [], st => ⟨st, 0, none⟩
  | i, sec :: rest, st =>
    match embed (newlineToSpace sec.content) with
    | none => ⟨st, 1, some i⟩
    | some er =>
      if insertFail i then ⟨st, 1, some i⟩
      else
        let r := sectionLoop embed insertFail pid (i + 1) rest
          (insertSection st ⟨pid, sec.slug, sec.heading, sec.content, er.2, er.1⟩)
        ⟨r.store, r.calls + 1, r.failed⟩

/-- How processing of one source ended. -/
inductive Outcome where
  | loadFailed
  | skipped
  | relinked
  | sectionFailed (i : Nat)
  | completed
  deriving DecidableEq, Repr

/-- Result of processing one source: the store as left behind (also after a
thrown error), the outcome, and the number of embedding calls made. -/
structure ProcResult where
  store : Store
  outcome : Outcome
  calls : Nat
  deriving DecidableEq, Repr

/-- The path of the page joined via `parent_page_id`, as the skip branch
compares it (`existingParentPage?.path`). -/
def existingParentPath (st : Store) (p : PageRecord) : Option String :=
  (p.parentPageId.bind (findPageById st)).map (fun q => q.path)

/-- The tail of the changed/new path once old sections are gone: resolve the
parent by path, upsert the page with `checksum: null`, run the section loop,
and set the final checksum only when no section failed. -/
def finishPage (embed : Embedder) (insertFail : Nat → Bool) (st1 : Store)
    (s : SrcInput) (pm : ProcessedMdx) : ProcResult :=
  let parentPage := findPageByOptPath st1 s.parentPath
  let up := upsertPage st1 s pm.meta (parentPage.map (fun q => q.id))
  let r := sectionLoop embed insertFail up.2.id 0 pm.sections up.1
  match r.failed with
  | some i => ⟨r.store, .sectionFailed i, r.calls⟩
  | none => ⟨setChecksum r.store up.2.id pm.checksum, .completed, r.calls⟩

/-- The changed/new path: delete the old sections (if any), then
`finishPage`. -/
def processChanged (embed : Embedder) (insertFail : Nat → Bool) (st : Store)
    (s : SrcInput) (pm : ProcessedMdx) (existing : Option PageRecord) :
    ProcResult :=
  finishPage embed insertFail
    (match existing with
      | some p => deleteSectionsFor st p.id
      | none => st) s pm

/-- The body of the per-source loop in `generateEmbeddings` (`part_000`),
with `shouldRefresh = false`: load, compare checksums, and either skip,
relink the parent, or (re)generate the page. -/
def processSource (embed : Embedder) (insertFail : Nat → Bool) (st : Store)
    (s : SrcInput) : ProcResult :=
  match s.loadResult with
  | none => ⟨st, .loadFailed, 0⟩
  | some pm =>
    match findPageByPath st s.path with
    | some existing =>
      if existing.checksum = some pm.checksum then
        if existingParentPath st existing = s.parentPath then
          ⟨st, .skipped, 0⟩
        else
          let parentPage := findPageByOptPath st s.parentPath
          ⟨updateParentLink st existing.id (parentPage.map (fun q => q.id)),
           .relinked, 0⟩
      else processChanged embed insertFail st s pm (some existing)
    | none => processChanged embed insertFail st s pm none

/-- The driver loop over all sources: every error of one source is caught,
logged and the iteration continues; returns the final store and the total
number of embedding calls. -/
def runPipeline (embed : Embedder) (insertFail : Nat → Bool) (st : Store) :
    List SrcInput → Store × Nat
  | [] => (st, 0)
  | s :: rest =>
    let r := processSource embed insertFail st s
    let rr := runPipeline embed insertFail r.store rest
    (rr.1, r.calls + rr.2)

def outcomeOk : Outcome → Bool
  | .skipped => true
  | .relinked => true
  | .completed => true
  | _ => false

/-- Every source of the run was processed without a thrown error. -/
def runOk (embed : Embedder) (insertFail : Nat → Bool) (st : Store) :
    List SrcInput → Bool
  | [] => true
  | s :: rest =>
    let r := processSource embed insertFail st s
    outcomeOk r.outcome && runOk embed insertFail r.store rest

/-- Store well-formedness: page paths and ids are unique, and the id
sequence dominates every page id, section owner id and parent link (all ids
come from the same sequence). -/
def Store.WF (st : Store) : Prop :=
  (st.pages.map (fun p => p.path)).Nodup ∧
  (st.pages.map (fun p => p.id)).Nodup ∧
  (∀ p ∈ st.pages, p.id < st.nextId) ∧
  (∀ sec ∈ st.sections, sec.pageId < st.nextId) ∧
  (∀ p ∈ st.pages, ∀ j, p.parentPageId = some j → j < st.nextId)

/-! ### Store operation lemmas -/

theorem find?_map_pred {α : Type} (f : α → α) (p : α → Bool) :
    ∀ (l : List α), (∀ x, p (f x) = p x) →
    (l.map f).find? p = (l.find? p).map f := by
  intro l h
  induction l with
  | nil => simp
  | cons a l ih =>
    rcases ha : p a with _ | _
    · have : p (f a) = false := by rw [h a, ha]
      simp [List.find?_cons, ha, this, ih]
    · have : p (f a) = true := by rw [h a, ha]
      simp [List.find?_cons, ha, this]

theorem findPageByPath_setChecksum (st : Store) (pid : Nat) (c : String)
    (pp : String) :
    findPageByPath (setChecksum st pid c) pp
      = (findPageByPath st pp).map
          (fun p => if p.id = pid then { p with checksum := some c } else p) := by
  unfold findPageByPath setChecksum
  apply find?_map_pred
  intro x
  by_cases hx : x.id = pid <;> simp [hx]

theorem findPageByPath_updateParentLink (st : Store) (pid : Nat)
    (parent : Option Nat) (pp : String) :
    findPageByPath (updateParentLink st pid parent) pp
      = (findPageByPath st pp).map
          (fun p => if p.id = pid then { p with parentPageId := parent } else p) := by
  unfold findPageByPath updateParentLink
  apply find?_map_pred
  intro x
  by_cases hx : x.id = pid <;> simp [hx]

theorem findPageByPath_deleteSectionsFor (st : Store) (pid : Nat) (pp : String) :
    findPageByPath (deleteSectionsFor st pid) pp = findPageByPath st pp := rfl

theorem findPageByPath_insertSection (st : Store) (sec : SectionRecord)
    (pp : String) :
    findPageByPath (insertSection st sec) pp = findPageByPath st pp := rfl

/-- The upserted page row's fields. -/
theorem upsertPage_fields (st : Store) (s : SrcInput) (meta : Option Meta)
    (parentId : Option Nat) :
    (upsertPage st s meta parentId).2.path = s.path ∧
    (upsertPage st s meta parentId).2.checksum = none ∧
    (upsertPage st s meta parentId).2.meta = meta ∧
    (upsertPage st s meta parentId).2.parentPageId = parentId ∧
    (upsertPage st s meta parentId).2.pageType = s.pageType ∧
    (upsertPage st s meta parentId).2.source = s.source := by
  rcases h : findPageByPath st s.path with _ | q
  · simp [upsertPage, h]
  · have h0 : st.pages.find? (fun r => r.path = s.path) = some q := h
    have hq : q.path = s.path := by simpa using List.find?_some h0
    simp [upsertPage, h, hq]

/-- Sections and—on the update branch—the id sequence are untouched by the
upsert. -/
theorem upsertPage_sections (st : Store) (s : SrcInput) (meta : Option Meta)
    (parentId : Option Nat) :
    (upsertPage st s meta parentId).1.sections = st.sections := by
  rcases h : findPageByPath st s.path with _ | q <;> simp [upsertPage, h]

/-- Looking up the upserted path finds exactly the returned row. -/
theorem findPageByPath_upsert_self (st : Store) (s : SrcInput)
    (meta : Option Meta) (parentId : Option Nat) :
    findPageByPath (upsertPage st s meta parentId).1 s.path
      = some (upsertPage st s meta parentId).2 := by
  rcases h : findPageByPath st s.path with _ | q
  · simp only [upsertPage, h]
    show List.find? _ (st.pages ++ [_]) = _
    rw [List.find?_append]
    have h0 : st.pages.find? (fun r => r.path = s.path) = none := h
    rw [h0]
    simp
  · simp only [upsertPage, h]
    show List.find? _ (st.pages.map _) = _
    rw [find?_map_pred _ _ st.pages ?hp]
    case hp =>
      intro x
      by_cases hx : x.path = s.path
      · have h0 : st.pages.find? (fun r => r.path = s.path) = some q := h
        have hq : q.path = s.path := by simpa using List.find?_some h0
        simp [hx, hq]
      · simp [hx]
    have h0 : st.pages.find? (fun r => r.path = s.path) = some q := h
    rw [h0]
    have hq : q.path = s.path := by
      simpa using List.find?_some h0
    simp [hq]

/-- Looking up a different path after the upsert is unchanged. -/
theorem findPageByPath_upsert_other (st : Store) (s : SrcInput)
    (meta : Option Meta) (parentId : Option Nat) (pp : String)
    (hpp : pp ≠ s.path) :
    findPageByPath (upsertPage st s meta parentId).1 pp
      = findPageByPath st pp := by
  rcases h : findPageByPath st s.path with _ | q
  · simp only [upsertPage, h]
    show List.find? (fun r => decide (r.path = pp)) (st.pages ++ [_])
      = st.pages.find? (fun r => decide (r.path = pp))
    rw [List.find?_append]
    have h1 : List.find? (fun r => decide (r.path = pp))
        [(⟨st.nextId, s.path, none, s.pageType, s.source, meta, parentId⟩ :
          PageRecord)] = none := by
      rw [List.find?_eq_none]
      intro x hx
      rw [List.mem_singleton.mp hx]
      intro hc
      exact hpp ((by simpa using hc : s.path = pp)).symm
    rw [h1, Option.or_none]
  · simp only [upsertPage, h]
    show List.find? (fun r => decide (r.path = pp)) (st.pages.map _)
      = st.pages.find? (fun r => decide (r.path = pp))
    rw [find?_map_pred _ _ st.pages ?hp]
    case hp =>
      intro x
      by_cases hx : x.path = s.path
      · have h0 : st.pages.find? (fun r => r.path = s.path) = some q := h
        have hq : q.path = s.path := by simpa using List.find?_some h0
        simp [hx, hq, hpp.symm]
      · simp [hx]
    rcases h2 : st.pages.find? (fun r => decide (r.path = pp)) with _ | q2
    · rw [h2]
      simp
    · rw [h2]
      have hq2 : q2.path = pp := by
        simpa using List.find?_some h2
      have hq2' : ¬(q2.path = s.path) := by
        rw [hq2]
        exact fun hc => hpp hc
      simp [hq2']

/-! ### Section-loop lemmas -/

/-- The rows the section loop inserts when every step succeeds. -/
def embeddedRecords (embed : Embedder) (pid : Nat) : List DocSection → List SectionRecord
  | [] => []
  | sec :: rest =>
    match embed (newlineToSpace sec.content) with
    | none => []
    | some er =>
      ⟨pid, sec.slug, sec.heading, sec.content, er.2, er.1⟩
        :: embeddedRecords embed pid rest

theorem embeddedRecords_pageId (embed : Embedder) (pid : Nat) :
    ∀ secs, ∀ r ∈ embeddedRecords embed pid secs, r.pageId = pid := by
  intro secs
  induction secs with
  | nil => intro r hr; simp [embeddedRecords] at hr
  | cons sec rest ih =>
    intro r hr
    rcases he : embed (newlineToSpace sec.content) with _ | er
    · rw [embeddedRecords, he] at hr
      simp at hr
    · rw [embeddedRecords, he] at hr
      rcases List.mem_cons.mp hr with h | h
      · rw [h]
      · exact ih r h

/-- The section loop never touches the pages table or the id sequence. -/
theorem sectionLoop_frame (embed : Embedder) (insF : Nat → Bool) (pid : Nat) :
    ∀ (secs : List DocSection) (i : Nat) (st : Store),
    (sectionLoop embed insF pid i secs st).store.pages = st.pages ∧
    (sectionLoop embed insF pid i secs st).store.nextId = st.nextId := by
  intro secs
  induction secs with
  | nil => intro i st; exact ⟨rfl, rfl⟩
  | cons sec rest ih =>
    intro i st
    rw [sectionLoop]
    rcases he : embed (newlineToSpace sec.content) with _ | er
    · exact ⟨rfl, rfl⟩
    · by_cases hf : insF i = true
      · simp [hf]
      · simp only [hf, Bool.false_eq_true, if_false]
        exact ih (i + 1) _

/-- On success the loop appends exactly the embedded rows, whose visible
fields reproduce the document's sections in order. -/
theorem sectionLoop_success (embed : Embedder) (insF : Nat → Bool) (pid : Nat) :
    ∀ (secs : List DocSection) (i : Nat) (st : Store),
    (sectionLoop embed insF pid i secs st).failed = none →
    (sectionLoop embed insF pid i secs st).store.sections
        = st.sections ++ embeddedRecords embed pid secs ∧
    (embeddedRecords embed pid secs).map (fun r => (r.slug, r.heading, r.content))
        = secs.map (fun sec => (sec.slug, sec.heading, sec.content)) := by
  intro secs
  induction secs with
  | nil => intro i st _; simp [sectionLoop, embeddedRecords]
  | cons sec rest ih =>
    intro i st hok
    rw [sectionLoop] at hok ⊢
    rcases he : embed (newlineToSpace sec.content) with _ | er
    · rw [he] at hok
      simp at hok
    · rw [he] at hok
      by_cases hf : insF i = true
      · simp [hf] at hok
      · simp only [hf, Bool.false_eq_true, if_false] at hok ⊢
        have hrec := ih (i + 1)
          (insertSection st ⟨pid, sec.slug, sec.heading, sec.content, er.2, er.1⟩)
          (by simpa using hok)
        rw [embeddedRecords, he]
        constructor
        · show (sectionLoop embed insF pid (i+1) rest _).store.sections = _
          rw [hrec.1]
          simp [insertSection]
        · simpa using hrec.2

/-- The sections table after the loop always extends the input table. -/
theorem sectionLoop_sections_extend (embed : Embedder) (insF : Nat → Bool)
    (pid : Nat) :
    ∀ (secs : List DocSection) (i : Nat) (st : Store),
    ∃ added, (sectionLoop embed insF pid i secs st).store.sections
        = st.sections ++ added ∧ ∀ r ∈ added, r.pageId = pid := by
  intro secs
  induction secs with
  | nil => intro i st; exact ⟨[], by simp [sectionLoop], by simp⟩
  | cons sec rest ih =>
    intro i st
    rw [sectionLoop]
    rcases he : embed (newlineToSpace sec.content) with _ | er
    · exact ⟨[], by simp, by simp⟩
    · by_cases hf : insF i = true
      · refine ⟨[], ?_, by simp⟩
        simp [hf]
      · simp only [hf, Bool.false_eq_true, if_false]
        obtain ⟨added, ha, hpid⟩ := ih (i + 1)
          (insertSection st ⟨pid, sec.slug, sec.heading, sec.content, er.2, er.1⟩)
        refine ⟨⟨pid, sec.slug, sec.heading, sec.content, er.2, er.1⟩ :: added, ?_, ?_⟩
        · show (sectionLoop embed insF pid (i+1) rest _).store.sections = _
          rw [ha]
          simp [insertSection]
        · intro r hr
          rcases List.mem_cons.mp hr with h | h
          · rw [h]
          · exact hpid r h

/-! ### Well-formedness preservation -/

theorem WF_deleteSectionsFor (st : Store) (pid : Nat) (h : st.WF) :
    (deleteSectionsFor st pid).WF := by
  obtain ⟨h1, h2, h3, h4, h5⟩ := h
  refine ⟨h1, h2, h3, ?_, h5⟩
  intro sec hsec
  exact h4 sec (List.mem_of_mem_filter hsec)

theorem WF_map_pages (st : Store) (f : PageRecord → PageRecord)
    (hpath : ∀ p ∈ st.pages, (f p).path = p.path)
    (hid : ∀ p ∈ st.pages, (f p).id = p.id)
    (hparent : ∀ p ∈ st.pages, ∀ j, (f p).parentPageId = some j → j < st.nextId)
    (h : st.WF) :
    Store.WF { st with pages := st.pages.map f } := by
  obtain ⟨h1, h2, h3, h4, _⟩ := h
  refine ⟨?_, ?_, ?_, h4, ?_⟩
  · rw [List.map_map]
    have he : st.pages.map ((fun p => p.path) ∘ f) = st.pages.map (fun p => p.path) :=
      List.map_congr_left (fun p hp => hpath p hp)
    rwa [he]
  · rw [List.map_map]
    have he : st.pages.map ((fun p => p.id) ∘ f) = st.pages.map (fun p => p.id) :=
      List.map_congr_left (fun p hp => hid p hp)
    rwa [he]
  · intro p hp
    obtain ⟨p0, hp0, rfl⟩ := List.mem_map.mp hp
    rw [hid p0 hp0]
    exact h3 p0 hp0
  · intro p hp
    obtain ⟨p0, hp0, rfl⟩ := List.mem_map.mp hp
    exact hparent p0 hp0

theorem WF_setChecksum (st : Store) (pid : Nat) (c : String) (h : st.WF) :
    (setChecksum st pid c).WF := by
  have h5 := h.2.2.2.2
  apply WF_map_pages st _ ?_ ?_ ?_ h
  · intro p _
    by_cases hp : p.id = pid <;> simp [hp]
  · intro p _
    by_cases hp : p.id = pid <;> simp [hp]
  · intro p hp j hj
    by_cases hpd : p.id = pid
    · simp [hpd] at hj
      exact h5 p hp j hj
    · simp [hpd] at hj
      exact h5 p hp j hj

theorem WF_updateParentLink (st : Store) (pid : Nat) (parent : Option Nat)
    (hpar : ∀ j, parent = some j → j < st.nextId)
    (h : st.WF) : (updateParentLink st pid parent).WF := by
  have h5 := h.2.2.2.2
  apply WF_map_pages st _ ?_ ?_ ?_ h
  · intro p _
    by_cases hp : p.id = pid <;> simp [hp]
  · intro p _
    by_cases hp : p.id = pid <;> simp [hp]
  · intro p hp j hj
    by_cases hpd : p.id = pid
    · simp [hpd] at hj
      exact hpar j hj
    · simp [hpd] at hj
      exact h5 p hp j hj

theorem WF_insertSection (st : Store) (sec : SectionRecord)
    (hsec : sec.pageId < st.nextId) (h : st.WF) : (insertSection st sec).WF := by
  obtain ⟨h1, h2, h3, h4, h5⟩ := h
  refine ⟨h1, h2, h3, ?_, h5⟩
  intro s hs
  rcases List.mem_append.mp hs with hmem | hmem
  · exact h4 s hmem
  · rw [List.mem_singleton.mp hmem]
    exact hsec

theorem WF_upsertPage (st : Store) (s : SrcInput) (meta : Option Meta)
    (parentId : Option Nat)
    (hparent : ∀ j, parentId = some j → j < st.nextId) (h : st.WF) :
    (upsertPage st s meta parentId).1.WF ∧
    (upsertPage st s meta parentId).2.id < (upsertPage st s meta parentId).1.nextId := by
  obtain ⟨h1, h2, h3, h4, h5⟩ := h
  rcases hf : findPageByPath st s.path with _ | q
  · have hnone : ∀ p ∈ st.pages, ¬(p.path = s.path) := by
      intro p hp hc
      have h0 : st.pages.find? (fun r => r.path = s.path) = none := hf
      have := List.find?_eq_none.mp h0 p hp
      simp [hc] at this
    constructor
    · refine ⟨?_, ?_, ?_, ?_, ?_⟩
      · simp only [upsertPage, hf, List.map_append]
        refine List.Nodup.append h1 (by simp) ?_
        intro x hx hy
        simp at hy
        obtain ⟨p, hp, rfl⟩ := List.mem_map.mp hx
        exact hnone p hp hy
      · simp only [upsertPage, hf, List.map_append]
        refine List.Nodup.append h2 (by simp) ?_
        intro x hx hy
        simp at hy
        obtain ⟨p, hp, rfl⟩ := List.mem_map.mp hx
        exact absurd hy (Nat.ne_of_lt (h3 p hp))
      · simp only [upsertPage, hf]
        intro p hp
        rcases List.mem_append.mp hp with hmem | hmem
        · exact Nat.lt_succ_of_lt (h3 p hmem)
        · rw [List.mem_singleton.mp hmem]
          exact Nat.lt_succ_self _
      · simp only [upsertPage, hf]
        intro sec hsec
        exact Nat.lt_succ_of_lt (h4 sec hsec)
      · simp only [upsertPage, hf]
        intro p hp j hj
        rcases List.mem_append.mp hp with hmem | hmem
        · exact Nat.lt_succ_of_lt (h5 p hmem j hj)
        · rw [List.mem_singleton.mp hmem] at hj
          exact Nat.lt_succ_of_lt (hparent j hj)
    · simp [upsertPage, hf]
  · have h0 : st.pages.find? (fun r => r.path = s.path) = some q := hf
    have hqmem : q ∈ st.pages := List.mem_of_find?_eq_some h0
    have hqpath : q.path = s.path := by simpa using List.find?_some h0
    have huniq : ∀ p ∈ st.pages, p.path = s.path → p = q := by
      intro p hp hpp
      exact List.inj_on_of_nodup_map h1 hp hqmem (by rw [hpp, hqpath])
    constructor
    · simp only [upsertPage, hf]
      apply WF_map_pages st _ ?_ ?_ ?_ ⟨h1, h2, h3, h4, h5⟩
      · intro p _
        by_cases hp : p.path = s.path <;> simp [hp, hqpath]
      · intro p hp
        by_cases hpp : p.path = s.path
        · rw [huniq p hp hpp]
          simp [hqpath]
        · simp [hpp]
      · intro p hp j hj
        by_cases hpp : p.path = s.path
        · simp [hpp] at hj
          exact hparent j hj
        · simp [hpp] at hj
          exact h5 p hp j hj
    · simp only [upsertPage, hf]
      exact h3 q hqmem

theorem findPageByPath_eq_of_pages {st st' : Store} (h : st.pages = st'.pages)
    (pp : String) : findPageByPath st pp = findPageByPath st' pp := by
  unfold findPageByPath
  rw [h]

theorem upsertPage_id_of_found (st : Store) (s : SrcInput) (meta : Option Meta)
    (parentId : Option Nat) (q : PageRecord)
    (h : findPageByPath st s.path = some q) :
    (upsertPage st s meta parentId).2.id = q.id := by
  simp [upsertPage, h]

theorem upsertPage_id_of_none (st : Store) (s : SrcInput) (meta : Option Meta)
    (parentId : Option Nat) (h : findPageByPath st s.path = none) :
    (upsertPage st s meta parentId).2.id = st.nextId := by
  simp [upsertPage, h]

theorem upsertPage_nextId_of_found (st : Store) (s : SrcInput)
    (meta : Option Meta) (parentId : Option Nat) (q : PageRecord)
    (h : findPageByPath st s.path = some q) :
    (upsertPage st s meta parentId).1.nextId = st.nextId := by
  simp [upsertPage, h]

theorem findPageByOptPath_mem (st : Store) (po : Option String)
    (q : PageRecord) (h : findPageByOptPath st po = some q) : q ∈ st.pages := by
  cases po with
  | none => simp [findPageByOptPath] at h
  | some pp => exact List.mem_of_find?_eq_some (h : st.pages.find? _ = some q)

/-- Ids produced by the parent lookup are bounded by the id sequence. -/
theorem findPageByOptPath_id_lt (st : Store) (po : Option String)
    (hWF : st.WF) :
    ∀ j, ((findPageByOptPath st po).map (fun q => q.id)) = some j →
      j < st.nextId := by
  intro j hj
  rcases hq : findPageByOptPath st po with _ | q
  · rw [hq] at hj
    simp at hj
  · rw [hq] at hj
    simp at hj
    rw [← hj]
    exact hWF.2.2.1 q (findPageByOptPath_mem st po q hq)

/-- The upserted row's id collides with no page at another path. -/
theorem upsertPage_id_unique (st : Store) (s : SrcInput) (meta : Option Meta)
    (parentId : Option Nat) (hWF : st.WF) (q2 : PageRecord)
    (hq2 : q2 ∈ st.pages) (hpp : q2.path ≠ s.path) :
    q2.id ≠ (upsertPage st s meta parentId).2.id := by
  obtain ⟨h1, h2, h3, _⟩ := hWF
  rcases hf : findPageByPath st s.path with _ | q
  · rw [upsertPage_id_of_none st s meta parentId hf]
    exact Nat.ne_of_lt (h3 q2 hq2)
  · rw [upsertPage_id_of_found st s meta parentId q hf]
    intro hc
    have h0 : st.pages.find? (fun r => r.path = s.path) = some q := hf
    have hqmem : q ∈ st.pages := List.mem_of_find?_eq_some h0
    have hqpath : q.path = s.path := by simpa using List.find?_some h0
    have : q2 = q := List.inj_on_of_nodup_map h2 hq2 hqmem hc
    rw [this, hqpath] at hpp
    exact hpp rfl

/-- The section loop preserves well-formedness when the owner id is in
range. -/
theorem WF_sectionLoop (embed : Embedder) (insF : Nat → Bool) (pid : Nat)
    (secs : List DocSection) (i : Nat) (st : Store)
    (hpid : pid < st.nextId) (h : st.WF) :
    (sectionLoop embed insF pid i secs st).store.WF := by
  obtain ⟨h1, h2, h3, h4, h5⟩ := h
  obtain ⟨hpages, hnext⟩ := sectionLoop_frame embed insF pid secs i st
  obtain ⟨added, hadd, haddpid⟩ := sectionLoop_sections_extend embed insF pid secs i st
  refine ⟨?_, ?_, ?_, ?_, ?_⟩
  · rw [hpages]; exact h1
  · rw [hpages]; exact h2
  · rw [hpages, hnext]; exact h3
  · rw [hadd, hnext]
    intro sec hsec
    rcases List.mem_append.mp hsec with hmem | hmem
    · exact h4 sec hmem
    · rw [haddpid sec hmem]
      exact hpid
  · rw [hpages, hnext]; exact h5

/-- Core behaviour of the (re)generation tail: well-formedness is preserved,
other paths are untouched, and the page at the source's path ends with a
null checksum on a mid-page failure, or with the final checksum over the
complete embedded section rows on success. -/
theorem finishPage_spec (embed : Embedder) (insF : Nat → Bool) (st1 : Store)
    (s : SrcInput) (pm : ProcessedMdx) (hWF : st1.WF)
    (hclean : st1.sections.filter
        (fun r => r.pageId
          = (upsertPage st1 s pm.meta
              ((findPageByOptPath st1 s.parentPath).map (fun q => q.id))).2.id)
        = []) :
    (finishPage embed insF st1 s pm).store.WF ∧
    (∀ pp, pp ≠ s.path →
      findPageByPath (finishPage embed insF st1 s pm).store pp
        = findPageByPath st1 pp) ∧
    ((finishPage embed insF st1 s pm).outcome = .completed ∨
      ∃ i, (finishPage embed insF st1 s pm).outcome = .sectionFailed i) ∧
    (∀ i, (finishPage embed insF st1 s pm).outcome = .sectionFailed i →
      ∃ pg, findPageByPath (finishPage embed insF st1 s pm).store s.path
          = some pg ∧ pg.checksum = none) ∧
    ((finishPage embed insF st1 s pm).outcome = .completed →
      ∃ pg, findPageByPath (finishPage embed insF st1 s pm).store s.path
          = some pg ∧
        pg.checksum = some pm.checksum ∧
        pg.parentPageId = (findPageByOptPath st1 s.parentPath).map (fun q => q.id) ∧
        (finishPage embed insF st1 s pm).store.sections.filter
            (fun r => r.pageId = pg.id)
          = embeddedRecords embed pg.id pm.sections ∧
        (embeddedRecords embed pg.id pm.sections).map
            (fun r => (r.slug, r.heading, r.content))
          = pm.sections.map (fun sec => (sec.slug, sec.heading, sec.content))) := by
  have hfields := upsertPage_fields st1 s pm.meta
    ((findPageByOptPath st1 s.parentPath).map (fun q => q.id))
  have hupWF := WF_upsertPage st1 s pm.meta
    ((findPageByOptPath st1 s.parentPath).map (fun q => q.id))
    (findPageByOptPath_id_lt st1 s.parentPath hWF) hWF
  have hfself := findPageByPath_upsert_self st1 s pm.meta
    ((findPageByOptPath st1 s.parentPath).map (fun q => q.id))
  have hfother := findPageByPath_upsert_other st1 s pm.meta
    ((findPageByOptPath st1 s.parentPath).map (fun q => q.id))
  have hsect := upsertPage_sections st1 s pm.meta
    ((findPageByOptPath st1 s.parentPath).map (fun q => q.id))
  have hiduniq := upsertPage_id_unique st1 s pm.meta
    ((findPageByOptPath st1 s.parentPath).map (fun q => q.id)) hWF
  simp only [finishPage]
  generalize hup : upsertPage st1 s pm.meta
    ((findPageByOptPath st1 s.parentPath).map (fun q => q.id)) = up at *
  have hframe := sectionLoop_frame embed insF up.2.id pm.sections 0 up.1
  have hextend := sectionLoop_sections_extend embed insF up.2.id pm.sections 0 up.1
  have hsucc := sectionLoop_success embed insF up.2.id pm.sections 0 up.1
  have hrWF := WF_sectionLoop embed insF up.2.id pm.sections 0 up.1 hupWF.2 hupWF.1
  generalize hr : sectionLoop embed insF up.2.id 0 pm.sections up.1 = r at *
  obtain ⟨hfpath, hfck, hfmeta, hfpar, hftype, hfsrc⟩ := hfields
  have hfind_r : findPageByPath r.store s.path = some up.2 := by
    rw [findPageByPath_eq_of_pages hframe.1 s.path]
    exact hfself
  have hfind_r_other : ∀ pp, pp ≠ s.path →
      findPageByPath r.store pp = findPageByPath st1 pp := by
    intro pp hpp
    rw [findPageByPath_eq_of_pages hframe.1 pp]
    exact hfother pp hpp
  rcases hfl : r.failed with _ | i
  · -- success: checksum is set over the complete section rows
    constructor
    · exact WF_setChecksum r.store up.2.id pm.checksum hrWF
    refine ⟨?_, Or.inl rfl, ?_, ?_⟩
    · intro pp hpp
      rw [findPageByPath_setChecksum, hfind_r_other pp hpp]
      rcases h2 : findPageByPath st1 pp with _ | q2
      · simp
      · have hq2mem : q2 ∈ st1.pages := List.mem_of_find?_eq_some h2
        have hq2path : q2.path = pp := by simpa using List.find?_some h2
        have hne : ¬(q2.id = up.2.id) := hiduniq q2 hq2mem (by rw [hq2path]; exact hpp)
        simp [hne]
    · intro i hi
      simp at hi
    · intro _
      refine ⟨{ up.2 with checksum := some pm.checksum }, ?_, rfl, ?_, ?_, ?_⟩
      · rw [findPageByPath_setChecksum, hfind_r]
        simp
      · show up.2.parentPageId = _
        exact hfpar
      · show (setChecksum r.store up.2.id pm.checksum).sections.filter _ = _
        have hsections : (setChecksum r.store up.2.id pm.checksum).sections
            = r.store.sections := rfl
        rw [hsections, (hsucc hfl).1, hsect, List.filter_append, hclean]
        have hall : ∀ rrec ∈ embeddedRecords embed up.2.id pm.sections,
            rrec.pageId = up.2.id := embeddedRecords_pageId embed up.2.id pm.sections
        rw [List.nil_append, List.filter_eq_self.mpr ?hf]
        case hf =>
          intro a ha
          simp [hall a ha]
      · exact (hsucc hfl).2
  · -- a section failed: the page keeps its null checksum
    constructor
    · exact hrWF
    refine ⟨?_, Or.inr ⟨i, rfl⟩, ?_, ?_⟩
    · intro pp hpp
      exact hfind_r_other pp hpp
    · intro j hj
      exact ⟨up.2, hfind_r, hfck⟩
    · intro hcon
      simp at hcon

theorem findPageByOptPath_deleteSectionsFor (st : Store) (pid : Nat)
    (po : Option String) :
    findPageByOptPath (deleteSectionsFor st pid) po = findPageByOptPath st po := by
  cases po <;> rfl

/-- `processChanged` satisfies the same contract, with the pre-state being
the store before the old sections were deleted. -/
theorem processChanged_spec (embed : Embedder) (insF : Nat → Bool) (st : Store)
    (s : SrcInput) (pm : ProcessedMdx) (existing : Option PageRecord)
    (hWF : st.WF) (hex : findPageByPath st s.path = existing) :
    (processChanged embed insF st s pm existing).store.WF ∧
    (∀ pp, pp ≠ s.path →
      findPageByPath (processChanged embed insF st s pm existing).store pp
        = findPageByPath st pp) ∧
    ((processChanged embed insF st s pm existing).outcome = .completed ∨
      ∃ i, (processChanged embed insF st s pm existing).outcome = .sectionFailed i) ∧
    (∀ i, (processChanged embed insF st s pm existing).outcome = .sectionFailed i →
      ∃ pg, findPageByPath (processChanged embed insF st s pm existing).store s.path
          = some pg ∧ pg.checksum = none) ∧
    ((processChanged embed insF st s pm existing).outcome = .completed →
      ∃ pg, findPageByPath (processChanged embed insF st s pm existing).store s.path
          = some pg ∧
        pg.checksum = some pm.checksum ∧
        pg.parentPageId = (findPageByOptPath st s.parentPath).map (fun q => q.id) ∧
        (processChanged embed insF st s pm existing).store.sections.filter
            (fun r => r.pageId = pg.id)
          = embeddedRecords embed pg.id pm.sections ∧
        (embeddedRecords embed pg.id pm.sections).map
            (fun r => (r.slug, r.heading, r.content))
          = pm.sections.map (fun sec => (sec.slug, sec.heading, sec.content))) := by
  rcases existing with _ | exp
  · have hWF1 : st.WF := hWF
    have hclean : st.sections.filter
        (fun r => r.pageId
          = (upsertPage st s pm.meta
              ((findPageByOptPath st s.parentPath).map (fun q => q.id))).2.id)
        = [] := by
      rw [upsertPage_id_of_none st s pm.meta _ hex]
      rw [List.filter_eq_nil_iff]
      intro a ha
      simp only [decide_eq_true_eq]
      exact Nat.ne_of_lt (hWF.2.2.2.1 a ha)
    have h := finishPage_spec embed insF st s pm hWF1 hclean
    exact h
  · have hWF1 : (deleteSectionsFor st exp.id).WF := WF_deleteSectionsFor st exp.id hWF
    have hexd : findPageByPath (deleteSectionsFor st exp.id) s.path = some exp := hex
    have hidq : (upsertPage (deleteSectionsFor st exp.id) s pm.meta
        ((findPageByOptPath (deleteSectionsFor st exp.id) s.parentPath).map
          (fun q => q.id))).2.id = exp.id :=
      upsertPage_id_of_found _ s pm.meta _ exp hexd
    have hclean : (deleteSectionsFor st exp.id).sections.filter
        (fun r => r.pageId
          = (upsertPage (deleteSectionsFor st exp.id) s pm.meta
              ((findPageByOptPath (deleteSectionsFor st exp.id) s.parentPath).map
                (fun q => q.id))).2.id)
        = [] := by
      rw [hidq, List.filter_eq_nil_iff]
      intro a ha
      simp only [decide_eq_true_eq]
      have := (List.mem_filter.mp ha).2
      simpa using this
    have h := finishPage_spec embed insF (deleteSectionsFor st exp.id) s pm hWF1 hclean
    obtain ⟨hA, hB, hC, hD, hE⟩ := h
    have hpc : processChanged embed insF st s pm (some exp)
        = finishPage embed insF (deleteSectionsFor st exp.id) s pm := rfl
    rw [hpc]
    refine ⟨hA, ?_, hC, hD, ?_⟩
    · intro pp hpp
      rw [hB pp hpp]
      rfl
    · intro hcompl
      obtain ⟨pg, hfind, hck, hpar, hsec, hpair⟩ := hE hcompl
      refine ⟨pg, hfind, hck, ?_, hsec, hpair⟩
      rw [hpar, findPageByOptPath_deleteSectionsFor]

theorem processSource_eq_noload (embed : Embedder) (insF : Nat → Bool)
    (st : Store) (s : SrcInput) (hl : s.loadResult = none) :
    processSource embed insF st s = ⟨st, .loadFailed, 0⟩ := by
  rw [processSource, hl]

theorem processSource_eq_new (embed : Embedder) (insF : Nat → Bool)
    (st : Store) (s : SrcInput) (pm : ProcessedMdx)
    (hl : s.loadResult = some pm) (he : findPageByPath st s.path = none) :
    processSource embed insF st s = processChanged embed insF st s pm none := by
  rw [processSource, hl, he]

theorem processSource_eq_found (embed : Embedder) (insF : Nat → Bool)
    (st : Store) (s : SrcInput) (pm : ProcessedMdx) (existing : PageRecord)
    (hl : s.loadResult = some pm)
    (he : findPageByPath st s.path = some existing) :
    processSource embed insF st s
      = if existing.checksum = some pm.checksum then
          (if existingParentPath st existing = s.parentPath then
            ⟨st, .skipped, 0⟩
          else
            ⟨updateParentLink st existing.id
                ((findPageByOptPath st s.parentPath).map (fun q => q.id)),
              .relinked, 0⟩)
        else processChanged embed insF st s pm (some existing) := by
  rw [processSource, hl, he]

/-- `processSource` satisfies the reconciliation contract: well-formedness
is preserved, other paths are untouched, a mid-page failure leaves a null
checksum, and a completed page carries the computed checksum over exactly
its embedded section rows. -/
theorem processSource_spec (embed : Embedder) (insF : Nat → Bool) (st : Store)
    (s : SrcInput) (hWF : st.WF) :
    (processSource embed insF st s).store.WF ∧
    (∀ pp, pp ≠ s.path →
      findPageByPath (processSource embed insF st s).store pp
        = findPageByPath st pp) ∧
    (∀ i, (processSource embed insF st s).outcome = .sectionFailed i →
      ∃ pg, findPageByPath (processSource embed insF st s).store s.path
          = some pg ∧ pg.checksum = none) ∧
    (∀ pm, s.loadResult = some pm →
      (processSource embed insF st s).outcome = .completed →
      ∃ pg, findPageByPath (processSource embed insF st s).store s.path
          = some pg ∧
        pg.checksum = some pm.checksum ∧
        (processSource embed insF st s).store.sections.filter
            (fun r => r.pageId = pg.id)
          = embeddedRecords embed pg.id pm.sections ∧
        (embeddedRecords embed pg.id pm.sections).map
            (fun r => (r.slug, r.heading, r.content))
          = pm.sections.map (fun sec => (sec.slug, sec.heading, sec.content))) := by
  rcases hload : s.loadResult with _ | pm
  · rw [processSource_eq_noload embed insF st s hload]
    exact ⟨hWF, fun pp _ => rfl, by intro i hi; simp at hi, by
      intro pm hpm hcompl
      simp at hpm⟩
  · rcases hex : findPageByPath st s.path with _ | existing
    · rw [processSource_eq_new embed insF st s pm hload hex]
      have h := processChanged_spec embed insF st s pm none hWF hex
      obtain ⟨hA, hB, _, hD, hE⟩ := h
      refine ⟨hA, hB, hD, ?_⟩
      intro pm' hpm' hcompl
      have hpm : pm' = pm := (Option.some.inj hpm').symm
      subst hpm
      obtain ⟨pg, hfind, hck, _, hsec, hpair⟩ := hE hcompl
      exact ⟨pg, hfind, hck, hsec, hpair⟩
    · rw [processSource_eq_found embed insF st s pm existing hload hex]
      by_cases hck : existing.checksum = some pm.checksum
      · rw [if_pos hck]
        by_cases hpar : existingParentPath st existing = s.parentPath
        · rw [if_pos hpar]
          exact ⟨hWF, fun pp _ => rfl, by intro i hi; simp at hi, by
            intro pm' _ hcompl
            simp at hcompl⟩
        · rw [if_neg hpar]
          have hexmem : existing ∈ st.pages := by
            have h0 : st.pages.find? (fun r => r.path = s.path) = some existing := hex
            exact List.mem_of_find?_eq_some h0
          have hexpath : existing.path = s.path := by
            have h0 : st.pages.find? (fun r => r.path = s.path) = some existing := hex
            simpa using List.find?_some h0
          refine ⟨WF_updateParentLink st existing.id _
              (findPageByOptPath_id_lt st s.parentPath hWF) hWF, ?_,
            by intro i hi; simp at hi, by
              intro pm' _ hcompl
              simp at hcompl⟩
          intro pp hpp
          rw [findPageByPath_updateParentLink]
          rcases h2 : findPageByPath st pp with _ | q2
          · simp
          · have hq2mem : q2 ∈ st.pages := List.mem_of_find?_eq_some h2
            have hq2path : q2.path = pp := by simpa using List.find?_some h2
            have hne : ¬(q2.id = existing.id) := by
              intro hc
              have : q2 = existing :=
                List.inj_on_of_nodup_map hWF.2.1 hq2mem hexmem hc
              rw [this, hexpath] at hq2path
              exact hpp hq2path.symm
            simp [hne]
      · rw [if_neg hck]
        have h := processChanged_spec embed insF st s pm (some existing) hWF hex
        obtain ⟨hA, hB, _, hD, hE⟩ := h
        refine ⟨hA, hB, hD, ?_⟩
        intro pm' hpm' hcompl
        have hpm : pm' = pm := (Option.some.inj hpm').symm
        subst hpm
        obtain ⟨pg, hfind, hck2, _, hsec, hpair⟩ := hE hcompl
        exact ⟨pg, hfind, hck2, hsec, hpair⟩

/-! ### Id tracking and idempotence machinery -/

theorem upsertPage_ids (st : Store) (s : SrcInput) (meta : Option Meta)
    (parentId : Option Nat) :
    ∀ p' ∈ (upsertPage st s meta parentId).1.pages,
      (∃ p ∈ st.pages, p'.id = p.id) ∨ p'.id = st.nextId := by
  intro p' hp'
  rcases hf : findPageByPath st s.path with _ | q
  · simp only [upsertPage, hf] at hp'
    rcases List.mem_append.mp hp' with hmem | hmem
    · exact Or.inl ⟨p', hmem, rfl⟩
    · right
      rw [List.mem_singleton.mp hmem]
  · simp only [upsertPage, hf] at hp'
    obtain ⟨p0, hp0, rfl⟩ := List.mem_map.mp hp'
    by_cases hpp : p0.path = s.path
    · refine Or.inl ⟨q, List.mem_of_find?_eq_some (hf : st.pages.find? _ = some q), ?_⟩
      simp [hpp]
    · exact Or.inl ⟨p0, hp0, by simp [hpp]⟩

theorem upsertPage_nextId_ge (st : Store) (s : SrcInput) (meta : Option Meta)
    (parentId : Option Nat) :
    st.nextId ≤ (upsertPage st s meta parentId).1.nextId := by
  rcases hf : findPageByPath st s.path with _ | q <;>
    simp [upsertPage, hf, Nat.le_succ]

theorem finishPage_ids (embed : Embedder) (insF : Nat → Bool) (st1 : Store)
    (s : SrcInput) (pm : ProcessedMdx) :
    (∀ p' ∈ (finishPage embed insF st1 s pm).store.pages,
      (∃ p ∈ st1.pages, p'.id = p.id) ∨ p'.id = st1.nextId) ∧
    st1.nextId ≤ (finishPage embed insF st1 s pm).store.nextId := by
  have hids := upsertPage_ids st1 s pm.meta
    ((findPageByOptPath st1 s.parentPath).map (fun q => q.id))
  have hge := upsertPage_nextId_ge st1 s pm.meta
    ((findPageByOptPath st1 s.parentPath).map (fun q => q.id))
  simp only [finishPage]
  generalize hup : upsertPage st1 s pm.meta
    ((findPageByOptPath st1 s.parentPath).map (fun q => q.id)) = up at *
  have hframe := sectionLoop_frame embed insF up.2.id pm.sections 0 up.1
  generalize hr : sectionLoop embed insF up.2.id 0 pm.sections up.1 = r at *
  rcases hfl : r.failed with _ | i
  · constructor
    · intro p' hp'
      have hp'' : p' ∈ r.store.pages.map
          (fun p => if p.id = up.2.id then { p with checksum := some pm.checksum }
            else p) := hp'
      obtain ⟨p0, hp0, rfl⟩ := List.mem_map.mp hp''
      rw [hframe.1] at hp0
      have hid : (if p0.id = up.2.id then { p0 with checksum := some pm.checksum }
          else p0).id = p0.id := by
        by_cases hc : p0.id = up.2.id <;> simp [hc]
      rw [hid]
      exact hids p0 hp0
    · show st1.nextId ≤ (setChecksum r.store up.2.id pm.checksum).nextId
      have : (setChecksum r.store up.2.id pm.checksum).nextId = r.store.nextId := rfl
      rw [this, hframe.2]
      exact hge
  · constructor
    · intro p' hp'
      have hp0 : p' ∈ r.store.pages := hp'
      rw [hframe.1] at hp0
      exact hids p' hp0
    · show st1.nextId ≤ r.store.nextId
      rw [hframe.2]
      exact hge

theorem processSource_ids (embed : Embedder) (insF : Nat → Bool) (st : Store)
    (s : SrcInput) :
    (∀ p' ∈ (processSource embed insF st s).store.pages,
      (∃ p ∈ st.pages, p'.id = p.id) ∨ p'.id = st.nextId) ∧
    st.nextId ≤ (processSource embed insF st s).store.nextId := by
  rcases hload : s.loadResult with _ | pm
  · rw [processSource_eq_noload embed insF st s hload]
    exact ⟨fun p' hp' => Or.inl ⟨p', hp', rfl⟩, Nat.le_refl _⟩
  · rcases hex : findPageByPath st s.path with _ | existing
    · rw [processSource_eq_new embed insF st s pm hload hex]
      exact finishPage_ids embed insF st s pm
    · rw [processSource_eq_found embed insF st s pm existing hload hex]
      by_cases hck : existing.checksum = some pm.checksum
      · rw [if_pos hck]
        by_cases hpar : existingParentPath st existing = s.parentPath
        · rw [if_pos hpar]
          exact ⟨fun p' hp' => Or.inl ⟨p', hp', rfl⟩, Nat.le_refl _⟩
        · rw [if_neg hpar]
          constructor
          · intro p' hp'
            obtain ⟨p0, hp0, rfl⟩ := List.mem_map.mp hp'
            refine Or.inl ⟨p0, hp0, ?_⟩
            by_cases hc : p0.id = existing.id <;> simp [hc]
          · exact Nat.le_refl _
      · rw [if_neg hck]
        exact finishPage_ids embed insF (deleteSectionsFor st existing.id) s pm

/-- A page id that is unused and within the exhausted part of the id
sequence stays unused. -/
theorem processSource_findById_none (embed : Embedder) (insF : Nat → Bool)
    (st : Store) (s : SrcInput) (j : Nat) (hj : j < st.nextId)
    (h : findPageById st j = none) :
    findPageById (processSource embed insF st s).store j = none := by
  have h0 : ∀ p ∈ st.pages, ¬(p.id = j) := by
    intro p hp hc
    have := List.find?_eq_none.mp (h : st.pages.find? _ = none) p hp
    simp [hc] at this
  have hids := (processSource_ids embed insF st s).1
  rw [show findPageById (processSource embed insF st s).store j
      = (processSource embed insF st s).store.pages.find?
          (fun r => r.id = j) from rfl]
  rw [List.find?_eq_none]
  intro p' hp'
  simp only [decide_eq_true_eq]
  rcases hids p' hp' with ⟨p, hp, hid⟩ | hid
  · rw [hid]
    exact h0 p hp
  · rw [hid]
    omega

/-- The state in which the reconciliation loop skips a source entirely:
the persisted page matches the computed checksum and the joined parent path
already agrees (`none` for the pipeline's parent-less sources). -/
def pageOK (st : Store) (s : SrcInput) : Prop :=
  ∃ pm pg, s.loadResult = some pm ∧ findPageByPath st s.path = some pg ∧
    pg.checksum = some pm.checksum ∧ existingParentPath st pg = none

/-- The skip branch is a strict no-op: same store, zero embedding calls. -/
theorem processSource_of_pageOK (embed : Embedder) (insF : Nat → Bool)
    (st : Store) (s : SrcInput) (hnone : s.parentPath = none)
    (h : pageOK st s) :
    processSource embed insF st s = ⟨st, .skipped, 0⟩ := by
  obtain ⟨pm, pg, hl, hf, hc, hp⟩ := h
  rw [processSource_eq_found embed insF st s pm pg hl hf, if_pos hc,
    if_pos (by rw [hp, hnone])]

/-- `pageOK` survives the processing of any other source. -/
theorem pageOK_preserved (embed : Embedder) (insF : Nat → Bool) (st : Store)
    (s' s : SrcInput) (hWF : st.WF) (hne : s.path ≠ s'.path)
    (h : pageOK st s) :
    pageOK (processSource embed insF st s').store s := by
  obtain ⟨pm, pg, hl, hf, hc, hp⟩ := h
  refine ⟨pm, pg, hl, ?_, hc, ?_⟩
  · rw [(processSource_spec embed insF st s' hWF).2.1 s.path hne]
    exact hf
  · unfold existingParentPath at hp ⊢
    rcases hpid : pg.parentPageId with _ | j
    · simp
    · rw [hpid] at hp
      have hfnone : findPageById st j = none := by
        rcases hq : findPageById st j with _ | q
        · rfl
        · rw [show (some j).bind (findPageById st) = findPageById st j from rfl,
            hq] at hp
          simp at hp
      have hmem : pg ∈ st.pages :=
        List.mem_of_find?_eq_some (hf : st.pages.find? _ = some pg)
      have hj := hWF.2.2.2.2 pg hmem j hpid
      have hnone := processSource_findById_none embed insF st s' j hj hfnone
      rw [show (some j).bind (findPageById (processSource embed insF st s').store)
          = findPageById (processSource embed insF st s').store j from rfl, hnone]
      rfl

/-- A source processed without error (for the pipeline's parent-less
sources) leaves its page in the skippable state. -/
theorem processSource_ok_pageOK (embed : Embedder) (insF : Nat → Bool)
    (st : Store) (s : SrcInput) (hWF : st.WF) (hnone : s.parentPath = none)
    (hok : outcomeOk (processSource embed insF st s).outcome = true) :
    pageOK (processSource embed insF st s).store s := by
  rcases hload : s.loadResult with _ | pm
  · rw [processSource_eq_noload embed insF st s hload] at hok
    simp [outcomeOk] at hok
  · have hcompleted : ∀ existing,
        (processSource embed insF st s
          = processChanged embed insF st s pm existing) →
        findPageByPath st s.path = existing →
        pageOK (processSource embed insF st s).store s := by
      intro existing heq hex
      have h := processChanged_spec embed insF st s pm existing hWF hex
      rcases h.2.2.1 with hco | ⟨i, hfailed⟩
      · obtain ⟨pg, hfind, hck, hpar, _, _⟩ := h.2.2.2.2 hco
        refine ⟨pm, pg, hload, ?_, hck, ?_⟩
        · rw [heq]
          exact hfind
        · unfold existingParentPath
          rw [hpar, hnone]
          rfl
      · rw [← heq] at hfailed
        rw [hfailed] at hok
        simp [outcomeOk] at hok
    rcases hex : findPageByPath st s.path with _ | existing
    · exact hcompleted none (processSource_eq_new embed insF st s pm hload hex) hex
    · by_cases hck : existing.checksum = some pm.checksum
      · by_cases hpar : existingParentPath st existing = s.parentPath
        · have heq : processSource embed insF st s = ⟨st, .skipped, 0⟩ := by
            rw [processSource_eq_found embed insF st s pm existing hload hex,
              if_pos hck, if_pos hpar]
          rw [heq]
          exact ⟨pm, existing, hload, hex, hck, by rw [hpar, hnone]⟩
        · have heq : processSource embed insF st s
              = ⟨updateParentLink st existing.id
                  ((findPageByOptPath st s.parentPath).map (fun q => q.id)),
                 .relinked, 0⟩ := by
            rw [processSource_eq_found embed insF st s pm existing hload hex,
              if_pos hck, if_neg hpar]
          rw [heq]
          have hparnone : (findPageByOptPath st s.parentPath).map (fun q => q.id)
              = none := by
            rw [hnone]
            rfl
          refine ⟨pm, { existing with parentPageId := none }, hload, ?_, hck, ?_⟩
          · show findPageByPath (updateParentLink st existing.id _) s.path = _
            rw [findPageByPath_updateParentLink, hex]
            simp [hparnone]
          · unfold existingParentPath
            rfl
      · refine hcompleted (some existing) ?_ hex
        rw [processSource_eq_found embed insF st s pm existing hload hex,
          if_neg hck]

/-- After an error-free run over parent-less sources with distinct paths,
every source is in the skippable state, and the store stays well-formed. -/
theorem runPipeline_establish (embed : Embedder) (insF : Nat → Bool) :
    ∀ (sources : List SrcInput) (st : Store), st.WF →
    (∀ s ∈ sources, s.parentPath = none) →
    (sources.map (fun s => s.path)).Nodup →
    runOk embed insF st sources = true →
    (runPipeline embed insF st sources).1.WF ∧
    (∀ s0 : SrcInput, pageOK st s0 →
      s0.path ∉ sources.map (fun s => s.path) →
      pageOK (runPipeline embed insF st sources).1 s0) ∧
    (∀ s ∈ sources, pageOK (runPipeline embed insF st sources).1 s) := by
  intro sources
  induction sources with
  | nil =>
    intro st hWF _ _ _
    exact ⟨hWF, fun s0 h _ => h, by simp⟩
  | cons s rest ih =>
    intro st hWF hnone hnodup hok
    rw [runOk] at hok
    simp only [Bool.and_eq_true] at hok
    obtain ⟨hok1, hok2⟩ := hok
    have hWF' : (processSource embed insF st s).store.WF :=
      (processSource_spec embed insF st s hWF).1
    have hpOK : pageOK (processSource embed insF st s).store s :=
      processSource_ok_pageOK embed insF st s hWF (hnone s (by simp)) hok1
    have hnodup' : (rest.map (fun s => s.path)).Nodup :=
      (List.nodup_cons.mp hnodup).2
    have hnotin : s.path ∉ rest.map (fun s => s.path) :=
      (List.nodup_cons.mp hnodup).1
    obtain ⟨ihWF, ihpres, ihall⟩ := ih (processSource embed insF st s).store
      hWF' (fun s' hs' => hnone s' (by simp [hs'])) hnodup' hok2
    have hrun : runPipeline embed insF st (s :: rest)
        = ((runPipeline embed insF (processSource embed insF st s).store rest).1,
           (processSource embed insF st s).calls
             + (runPipeline embed insF (processSource embed insF st s).store rest).2) := by
      rw [runPipeline]
    rw [hrun]
    refine ⟨ihWF, ?_, ?_⟩
    · intro s0 h0 hnot
      have hne : s0.path ≠ s.path := by
        intro hc
        exact hnot (by simp [hc])
      have h1 : pageOK (processSource embed insF st s).store s0 :=
        pageOK_preserved embed insF st s s0 hWF hne h0
      exact ihpres s0 h1 (by
        intro hc
        exact hnot (by simp; right; simpa using hc))
    · intro s' hs'
      rcases List.mem_cons.mp hs' with h1 | h1
      · subst h1
        exact ihpres s' hpOK hnotin
      · exact ihall s' h1

/-- Over sources that are all in the skippable state, a run is the
identity on the store and makes zero embedding calls. -/
theorem runPipeline_skip_all (embed : Embedder) (insF : Nat → Bool) :
    ∀ (sources : List SrcInput) (st1 : Store),
    (∀ s ∈ sources, s.parentPath = none) →
    (∀ s ∈ sources, pageOK st1 s) →
    runPipeline embed insF st1 sources = (st1, 0) := by
  intro sources
  induction sources with
  | nil => intro st1 _ _; rfl
  | cons s rest ih =>
    intro st1 hnone hall
    have hskip : processSource embed insF st1 s = ⟨st1, .skipped, 0⟩ :=
      processSource_of_pageOK embed insF st1 s (hnone s (by simp))
        (hall s (by simp))
    rw [runPipeline, hskip]
    have := ih st1 (fun s' hs' => hnone s' (by simp [hs']))
      (fun s' hs' => hall s' (by simp [hs']))
    rw [this]
    rfl

/-! ### Driver decomposition -/

theorem runPipeline_append (embed : Embedder) (insF : Nat → Bool) :
    ∀ (us vs : List SrcInput) (st : Store),
    runPipeline embed insF st (us ++ vs)
      = ((runPipeline embed insF (runPipeline embed insF st us).1 vs).1,
         (runPipeline embed insF st us).2
           + (runPipeline embed insF (runPipeline embed insF st us).1 vs).2) := by
  intro us
  induction us with
  | nil => intro vs st; simp [runPipeline]
  | cons s rest ih =>
    intro vs st
    show ((runPipeline embed insF (processSource embed insF st s).store (rest ++ vs)).1,
        (processSource embed insF st s).calls
          + (runPipeline embed insF (processSource embed insF st s).store (rest ++ vs)).2)
      = _
    rw [ih vs (processSource embed insF st s).store]
    have hshape : runPipeline embed insF st (s :: rest)
        = ((runPipeline embed insF (processSource embed insF st s).store rest).1,
           (processSource embed insF st s).calls
             + (runPipeline embed insF (processSource embed insF st s).store rest).2) := rfl
    rw [hshape]
    dsimp only
    rw [Nat.add_assoc]

/-! ### Packaged `splitTreeBy` facts at the call sites of the segmenter -/

theorem splitTreeBy_props (p : MdNode → Bool) (ns : List MdNode) :
    (splitTreeBy p ns).flatten = ns ∧
    (∀ g ∈ splitTreeBy p ns, g ≠ []) ∧
    (∀ g ∈ splitTreeBy p ns, ∀ x ∈ g.tail, p x = false) ∧
    (∀ g ∈ (splitTreeBy p ns).drop 1, ∃ hd tl, g = hd :: tl ∧ p hd = true) := by
  rcases ns with _ | ⟨n, rest⟩
  · rw [splitTreeBy_nil]
    exact ⟨rfl, by simp, by simp, by simp⟩
  · rw [splitTreeBy_cons]
    exact ⟨splitRun_join p rest [n],
      splitRun_ne_nil p rest [n] (by simp),
      splitRun_tail_not p rest [n] (by simp),
      splitRun_drop_one p rest [n]⟩

theorem find?_skip_clean (p : MdNode → Bool) :
    ∀ (pre l : List MdNode), (∀ n ∈ pre, p n = false) →
    List.find? p (pre ++ l) = List.find? p l := by
  intro pre l hpre
  rw [List.find?_append]
  have h0 : List.find? p pre = none :=
    List.find?_eq_none.mpr (fun x hx => by simp [hpre x hx])
  rw [h0]
  rfl

/-! ### Path-normalization lemmas (`GithubEmbeddingSource`) -/

theorem strMk_data (s : String) : String.mk s.data = s := by
  cases s
  rfl

theorem getLast?_drop :
    ∀ (l : List Char) (k : Nat), l.drop k ≠ [] →
    (l.drop k).getLast? = l.getLast? := by
  intro l
  induction l with
  | nil =>
    intro k h
    simp at h
  | cons a l ih =>
    intro k h
    cases k with
    | zero => rfl
    | succ k =>
      rw [List.drop_succ_cons] at h ⊢
      rw [ih k h]
      have hl : l ≠ [] := by
        intro hc
        rw [hc] at h
        simp at h
      rcases l with _ | ⟨b, l⟩
      · exact absurd rfl hl
      · rw [List.getLast?_cons_cons]

/-- A path ending in `.md` never matches the `.mdx` suffix test. -/
theorem strDropIs_mdx_of_md (r : String) :
    strDropIs (r ++ ".md") ".mdx" = false := by
  rcases hb : strDropIs (r ++ ".md") ".mdx" with _ | _
  · rfl
  · exfalso
    have h := hb
    simp only [strDropIs, decide_eq_true_eq] at h
    obtain ⟨hdrop, _⟩ := h
    have hne : (r ++ ".md").data.drop
        ((r ++ ".md").data.length - ".mdx".data.length) ≠ [] := by
      rw [hdrop]
      simp
    have hlast := getLast?_drop _ _ hne
    rw [hdrop] at hlast
    have hx : (".mdx".data : List Char).getLast? = some 'x' := by decide
    have hd : (r ++ ".md").data.getLast? = some 'd' := by
      rw [String.data_append]
      have : (".md".data : List Char) = ['.', 'm', 'd'] := by decide
      rw [this, show (['.', 'm', 'd'] : List Char) = ['.', 'm'] ++ ['d'] from rfl,
        ← List.append_assoc, List.getLast?_concat]
    rw [hx, hd] at hlast
    simp at hlast

theorem stripMdExt_append_mdx (r : String) : stripMdExt (r ++ ".mdx") = r := by
  have hdata : (r ++ ".mdx").data = r.data ++ ".mdx".data := String.data_append r _
  have hlen : (r ++ ".mdx").data.length - ".mdx".data.length = r.data.length := by
    rw [hdata, List.length_append]
    simp
  have hcond : strDropIs (r ++ ".mdx") ".mdx" = true := by
    simp only [strDropIs, decide_eq_true_eq]
    constructor
    · rw [hlen, hdata, List.drop_left]
    · rw [hdata, List.length_append]
      have h1 : (".mdx".data : List Char).length = 4 := by decide
      have h2 : (['.', 'm', 'd', 'x'] : List Char).length = 4 := by decide
      omega
  rw [stripMdExt, if_pos hcond]
  have h4 : (".mdx".data : List Char).length = 4 := by decide
  rw [show (r ++ ".mdx").data.length - 4
      = (r ++ ".mdx").data.length - ".mdx".data.length from by rw [h4], hlen,
    hdata, List.take_left, strMk_data]

theorem stripMdExt_append_md (r : String) : stripMdExt (r ++ ".md") = r := by
  have hdata : (r ++ ".md").data = r.data ++ ".md".data := String.data_append r _
  have hlen : (r ++ ".md").data.length - ".md".data.length = r.data.length := by
    rw [hdata, List.length_append]
    simp
  have hcond : strDropIs (r ++ ".md") ".md" = true := by
    simp only [strDropIs, decide_eq_true_eq]
    constructor
    · rw [hlen, hdata, List.drop_left]
    · rw [hdata, List.length_append]
      have h1 : (".md".data : List Char).length = 3 := by decide
      have h2 : (['.', 'm', 'd'] : List Char).length = 3 := by decide
      omega
  rw [stripMdExt, if_neg (by rw [strDropIs_mdx_of_md r]; simp), if_pos hcond]
  have h3 : (".md".data : List Char).length = 3 := by decide
  rw [show (r ++ ".md").data.length - 3
      = (r ++ ".md").data.length - ".md".data.length from by rw [h3], hlen,
    hdata, List.take_left, strMk_data]

theorem stripDocs_append (r : String) : stripDocs ("docs" ++ r) = r := by
  have hdata : ("docs" ++ r).data = "docs".data ++ r.data := String.data_append _ r
  have hcond : strTakeIs ("docs" ++ r) "docs" = true := by
    simp only [strTakeIs, decide_eq_true_eq]
    rw [hdata, List.take_left]
  rw [stripDocs, if_pos hcond]
  have h4 : ("docs".data : List Char).length = 4 := by decide
  rw [show (4 : Nat) = ("docs".data : List Char).length from h4.symm, hdata,
    List.drop_left, strMk_data]

/-- The full normalization on a `docs`-anchored `.mdx` path. -/
theorem normalizeGithubPath_mdx (r : String) :
    normalizeGithubPath ("docs" ++ r ++ ".mdx") = r := by
  rw [normalizeGithubPath, show ("docs" ++ r ++ ".mdx" : String)
      = "docs" ++ (r ++ ".mdx") from rfl, stripDocs_append, stripMdExt_append_mdx]

/-- The full normalization on a `docs`-anchored `.md` path. -/
theorem normalizeGithubPath_md (r : String) :
    normalizeGithubPath ("docs" ++ r ++ ".md") = r := by
  rw [normalizeGithubPath, show ("docs" ++ r ++ ".md" : String)
      = "docs" ++ (r ++ ".md") from rfl, stripDocs_append, stripMdExt_append_md]

/-! ### Slug-sequence helpers -/

/-- The slug sequence of a document is the slugger run, from a fresh state,
over the truthy (non-empty) heading texts of its stripped node list. -/
theorem docSlugs_eq_sluggerRun (nodes : List MdNode) :
    docSlugs nodes
      = sluggerRun [] ((headingTexts (nodes.filter (fun n => !isMdxNode n))).filter
          (fun t => t ≠ "")) := by
  show (sectionsLoop [] (splitTreeBy isHeading
      (nodes.filter (fun n => !isMdxNode n)))).filterMap (fun s => s.slug) = _
  rw [sectionsLoop_slugs]
  rcases hs : nodes.filter (fun n => !isMdxNode n) with _ | ⟨n, rest⟩
  · rw [splitTreeBy_nil]
    rfl
  · rw [splitTreeBy_cons, treesHeads_splitRun, headingTexts_cons]
    have h1 : headStr [n] = headingText n := by simp [headStr]
    rw [h1]

/-- Stripping MDX nodes does not change the heading sequence. -/
theorem headingTexts_filter (nodes : List MdNode) :
    headingTexts (nodes.filter (fun n => !isMdxNode n)) = headingTexts nodes := by
  induction nodes with
  | nil => rfl
  | cons n rest ih =>
    by_cases h : isMdxNode n = true
    · have hn : headingText n = none := by
        cases n <;> simp_all [headingText, isMdxNode]
      rw [List.filter_cons, if_neg (by simp [h]), headingTexts_cons, hn, ih]
      simp
    · rw [List.filter_cons, if_pos (by simp [h]), headingTexts_cons,
        headingTexts_cons, ih]

/-! ## The claims -/

/-- C1: a page processed by a reconciliation run carries a non-null checksum
only if every one of its sections was embedded and inserted into the section
store before the checksum was written: on a completed page the stored
checksum is the computed one and the page's section rows are exactly the
embedded images of all of the document's sections, while a mid-page
embedding or insert failure leaves the page with a null checksum. -/
theorem nextai_C1 (embed : Embedder) (insF : Nat → Bool) (st : Store)
    (s : SrcInput) (pm : ProcessedMdx) (hWF : st.WF)
    (hload : s.loadResult = some pm) :
    (∀ i, (processSource embed insF st s).outcome = Outcome.sectionFailed i →
      ∃ pg, findPageByPath (processSource embed insF st s).store s.path
          = some pg ∧ pg.checksum = none) ∧
    ((processSource embed insF st s).outcome = Outcome.completed →
      ∃ pg, findPageByPath (processSource embed insF st s).store s.path
          = some pg ∧
        pg.checksum = some pm.checksum ∧
        (processSource embed insF st s).store.sections.filter
            (fun r => r.pageId = pg.id) = embeddedRecords embed pg.id pm.sections ∧
        (embeddedRecords embed pg.id pm.sections).map
            (fun r => (r.slug, r.heading, r.content))
          = pm.sections.map (fun sec => (sec.slug, sec.heading, sec.content))) := by
  have h := processSource_spec embed insF st s hWF
  exact ⟨h.2.2.1, fun hc => h.2.2.2 pm hload hc⟩

/-- C1 witness: a one-section document processed on an empty store with a
succeeding embedder completes and ends with the computed checksum. -/
theorem nextai_C1_witness :
    ∃ pg, findPageByPath (processSource (fun _ => some ([1], 2)) (fun _ => false)
        ⟨[], [], 0⟩ ⟨"guide", "github", "/a", none,
          some ⟨"ck", none, [⟨"c", some "h", some "h"⟩]⟩⟩).store "/a" = some pg ∧
      pg.checksum = some "ck" := by
  have h := nextai_C1 (fun _ => some ([1], 2)) (fun _ => false)
    ⟨[], [], 0⟩ ⟨"guide", "github", "/a", none,
      some ⟨"ck", none, [⟨"c", some "h", some "h"⟩]⟩⟩
    ⟨"ck", none, [⟨"c", some "h", some "h"⟩]⟩
    ⟨by simp, by simp, by simp, by simp, by simp⟩ rfl
  obtain ⟨pg, hfind, hck, _, _⟩ := h.2 (by decide)
  exact ⟨pg, hfind, hck⟩

/-- C2: when the persisted checksum equals the newly computed one with the
same parent, reconciliation of that document is a strict no-op (unchanged
store, zero embedding calls); consequently, after an error-free run over the
pipeline's parent-less, distinct-path sources, running the same sources
again changes nothing and makes zero embedding calls. -/
theorem nextai_C2 :
    (∀ (embed : Embedder) (insF : Nat → Bool) (st : Store) (s : SrcInput)
      (pm : ProcessedMdx) (existing : PageRecord),
      s.loadResult = some pm →
      findPageByPath st s.path = some existing →
      existing.checksum = some pm.checksum →
      existingParentPath st existing = s.parentPath →
      processSource embed insF st s = ⟨st, Outcome.skipped, 0⟩) ∧
    (∀ (embed : Embedder) (insF : Nat → Bool) (st : Store)
      (sources : List SrcInput),
      st.WF →
      (∀ s ∈ sources, s.parentPath = none) →
      (sources.map (fun s => s.path)).Nodup →
      runOk embed insF st sources = true →
      runPipeline embed insF (runPipeline embed insF st sources).1 sources
        = ((runPipeline embed insF st sources).1, 0)) := by
  constructor
  · intro embed insF st s pm existing hl he hck hpar
    rw [processSource_eq_found embed insF st s pm existing hl he, if_pos hck,
      if_pos hpar]
  · intro embed insF st sources hWF hnone hnodup hok
    obtain ⟨_, _, hall⟩ :=
      runPipeline_establish embed insF sources st hWF hnone hnodup hok
    exact runPipeline_skip_all embed insF sources
      (runPipeline embed insF st sources).1 hnone hall

/-- C2 witness: a concrete second run over one source is the identity with
zero embedding calls. -/
theorem nextai_C2_witness :
    runPipeline (fun _ => some ([1], 2)) (fun _ => false)
        (runPipeline (fun _ => some ([1], 2)) (fun _ => false) ⟨[], [], 0⟩
          [⟨"guide", "github", "/a", none,
            some ⟨"ck", none, [⟨"c", some "h", some "h"⟩]⟩⟩]).1
        [⟨"guide", "github", "/a", none,
          some ⟨"ck", none, [⟨"c", some "h", some "h"⟩]⟩⟩]
      = ((runPipeline (fun _ => some ([1], 2)) (fun _ => false) ⟨[], [], 0⟩
          [⟨"guide", "github", "/a", none,
            some ⟨"ck", none, [⟨"c", some "h", some "h"⟩]⟩⟩]).1, 0) := by
  exact nextai_C2.2 (fun _ => some ([1], 2)) (fun _ => false) ⟨[], [], 0⟩
    [⟨"guide", "github", "/a", none,
      some ⟨"ck", none, [⟨"c", some "h", some "h"⟩]⟩⟩]
    ⟨by simp, by simp, by simp, by simp, by simp⟩
    (by decide) (by decide) (by decide)

/-- C3: the driver catches the error of any single document and continues:
the run over `us ++ b :: vs` always decomposes into processing `us`, then
`b`, then all of `vs`, whatever `b`'s outcome; a document whose fetch/parse
(`load`) fails contributes nothing, so the run equals the run without it;
and processing one document never touches the page records of other paths. -/
theorem nextai_C3 (embed : Embedder) (insF : Nat → Bool) :
    (∀ (us : List SrcInput) (b : SrcInput) (vs : List SrcInput) (st : Store),
      runPipeline embed insF st (us ++ b :: vs)
        = ((runPipeline embed insF
              (processSource embed insF (runPipeline embed insF st us).1 b).store
              vs).1,
           (runPipeline embed insF st us).2
             + ((processSource embed insF (runPipeline embed insF st us).1 b).calls
               + (runPipeline embed insF
                   (processSource embed insF (runPipeline embed insF st us).1 b).store
                   vs).2))) ∧
    (∀ (us : List SrcInput) (b : SrcInput) (vs : List SrcInput) (st : Store),
      b.loadResult = none →
      runPipeline embed insF st (us ++ b :: vs)
        = runPipeline embed insF st (us ++ vs)) ∧
    (∀ (st : Store) (s : SrcInput) (pp : String), st.WF → pp ≠ s.path →
      findPageByPath (processSource embed insF st s).store pp
        = findPageByPath st pp) := by
  have hdecomp : ∀ (us : List SrcInput) (b : SrcInput) (vs : List SrcInput)
      (st : Store),
      runPipeline embed insF st (us ++ b :: vs)
        = ((runPipeline embed insF
              (processSource embed insF (runPipeline embed insF st us).1 b).store
              vs).1,
           (runPipeline embed insF st us).2
             + ((processSource embed insF (runPipeline embed insF st us).1 b).calls
               + (runPipeline embed insF
                   (processSource embed insF (runPipeline embed insF st us).1 b).store
                   vs).2)) := by
    intro us b vs st
    rw [runPipeline_append embed insF us (b :: vs) st]
    rfl
  refine ⟨hdecomp, ?_, ?_⟩
  · intro us b vs st hb
    rw [hdecomp us b vs st, runPipeline_append embed insF us vs st]
    rw [processSource_eq_noload embed insF (runPipeline embed insF st us).1 b hb]
    simp
  · intro st s pp hWF hpp
    exact (processSource_spec embed insF st s hWF).2.1 pp hpp

/-- C3 witness: with a middle document whose load fails, the three-document
run equals the run over the two good documents. -/
theorem nextai_C3_witness :
    runPipeline (fun _ => some ([1], 2)) (fun _ => false) ⟨[], [], 0⟩
        [⟨"guide", "github", "/a", none,
            some ⟨"cka", none, [⟨"ca", some "h", some "h"⟩]⟩⟩,
         ⟨"guide", "github", "/b", none, none⟩,
         ⟨"guide", "github", "/c", none,
            some ⟨"ckc", none, [⟨"cc", some "h", some "h"⟩]⟩⟩]
      = runPipeline (fun _ => some ([1], 2)) (fun _ => false) ⟨[], [], 0⟩
        [⟨"guide", "github", "/a", none,
            some ⟨"cka", none, [⟨"ca", some "h", some "h"⟩]⟩⟩,
         ⟨"guide", "github", "/c", none,
            some ⟨"ckc", none, [⟨"cc", some "h", some "h"⟩]⟩⟩] := by
  exact (nextai_C3 (fun _ => some ([1], 2)) (fun _ => false)).2.1
    [⟨"guide", "github", "/a", none,
        some ⟨"cka", none, [⟨"ca", some "h", some "h"⟩]⟩⟩]
    ⟨"guide", "github", "/b", none, none⟩
    [⟨"guide", "github", "/c", none,
        some ⟨"ckc", none, [⟨"cc", some "h", some "h"⟩]⟩⟩]
    ⟨[], [], 0⟩ rfl

/-- C4 counterexample: a document whose stripped body is empty has no
headings, yet segmentation produces zero sections, not the one section the
claim asserts for every no-heading document. -/
theorem nextai_C4_counterexample :
    headingTexts ([] : List MdNode) = [] ∧
    (processTreeForSearch ([] : List MdNode)).2 = [] ∧
    ((processTreeForSearch ([] : List MdNode)).2).length ≠ 1 := by
  decide

/-- C4 (amended): segmentation splits the stripped node list into non-empty
trees that concatenate back to it; a heading occurs only as the head of its
tree; every tree after the first starts with a heading; section contents and
headings are exactly the renderings and leading-heading texts of the trees;
and a document with no headings whose stripped body is non-empty yields
exactly one section — the whole body with no heading.  (As stated the claim
fails only for documents whose stripped body is empty, which yield zero
sections.) -/
theorem nextai_C4 (nodes : List MdNode) :
    (splitTreeBy isHeading (nodes.filter (fun n => !isMdxNode n))).flatten
        = nodes.filter (fun n => !isMdxNode n) ∧
    (∀ g ∈ splitTreeBy isHeading (nodes.filter (fun n => !isMdxNode n)),
      g ≠ []) ∧
    (∀ g ∈ splitTreeBy isHeading (nodes.filter (fun n => !isMdxNode n)),
      ∀ x ∈ g.tail, isHeading x = false) ∧
    (∀ g ∈ (splitTreeBy isHeading (nodes.filter (fun n => !isMdxNode n))).drop 1,
      ∃ hd tl, g = hd :: tl ∧ isHeading hd = true) ∧
    ((processTreeForSearch nodes).2.map (fun s => (s.content, s.heading))
      = (splitTreeBy isHeading (nodes.filter (fun n => !isMdxNode n))).map
          (fun t => (toMarkdownTree t, headStr t))) ∧
    (nodes.filter (fun n => !isMdxNode n) ≠ [] →
      (∀ x ∈ nodes.filter (fun n => !isMdxNode n), isHeading x = false) →
      (processTreeForSearch nodes).2
        = [⟨toMarkdownTree (nodes.filter (fun n => !isMdxNode n)), none, none⟩]) := by
  obtain ⟨hflat, hne, htail, hdrop⟩ :=
    splitTreeBy_props isHeading (nodes.filter (fun n => !isMdxNode n))
  refine ⟨hflat, hne, htail, hdrop, ?_, ?_⟩
  · show (sectionsLoop [] (splitTreeBy isHeading
        (nodes.filter (fun n => !isMdxNode n)))).map (fun s => (s.content, s.heading))
      = _
    exact sectionsLoop_pair _ []
  · intro hnonempty hnohead
    rcases hs : nodes.filter (fun n => !isMdxNode n) with _ | ⟨n, rest⟩
    · exact absurd hs hnonempty
    · show sectionsLoop [] (splitTreeBy isHeading
          (nodes.filter (fun n => !isMdxNode n))) = _
      rw [hs, splitTreeBy_cons,
        splitRun_no_p isHeading rest [n]
          (fun x hx => by
            rw [hs] at hnohead
            exact hnohead x (by simp [hx]))]
      have hh : headStr ([n] ++ rest) = none := by
        rw [hs] at hnohead
        have hn : isHeading n = false := hnohead n (by simp)
        cases n <;> simp_all [headStr, headingText, isHeading]
      rw [sectionsLoop_cons_none [] ([n] ++ rest) [] hh]
      rfl

/-- C4 witness: a one-paragraph document produces exactly one section, the
whole body, with no heading and no slug. -/
theorem nextai_C4_witness :
    (processTreeForSearch [MdNode.paragraph "hello"]).2
      = [⟨toMarkdownTree [MdNode.paragraph "hello"], none, none⟩] := by
  exact (nextai_C4 [MdNode.paragraph "hello"]).2.2.2.2.2 (by decide) (by decide)

/-- C5 counterexample: a literal `false` in the `meta` export is not
retained: the extracted mapping binds the key to `undefined`, because the
source computes `(value.type === 'Literal' && value.value) || undefined`,
which collapses every falsy literal (`false`, `0`, `""`, `null`). -/
theorem nextai_C5_counterexample :
    extractMetaExport [MdNode.mdxjsEsm [EstreeStmt.exportNamedVar (some "meta")
        (some (InitExpr.objectExpr [ObjProp.property (PropKey.ident "draft")
          (PropVal.lit (LitVal.boolean false))]))]]
      = some [("draft", none)] ∧
    some [("draft", (none : Option LitVal))]
      ≠ some [("draft", some (LitVal.boolean false))] := by
  decide

/-- C5 (amended): metadata extraction finds the first `export const meta`
statement and returns the mapping of its object literal's identifier-keyed
properties; truthy literal values (non-empty strings, non-zero numbers,
`true`, regexes) are retained, while falsy literals and non-literal values
are mapped to `undefined`; absence of such an export yields `undefined` as a
valid outcome. -/
theorem nextai_C5 :
    (∀ nodes : List MdNode, (∀ n ∈ nodes, isMetaExportNode n = false) →
      extractMetaExport nodes = none) ∧
    (∀ (pre rest : List MdNode) (stmts : List EstreeStmt) (props : List ObjProp),
      (∀ n ∈ pre, isMetaExportNode n = false) →
      extractMetaExport (pre ++ MdNode.mdxjsEsm
          (EstreeStmt.exportNamedVar (some "meta")
            (some (InitExpr.objectExpr props)) :: stmts) :: rest)
        = some (getObjectFromExpression props)) ∧
    (∀ (name : String) (l : LitVal), name ≠ "" → litTruthy l = true →
      getObjectFromExpression [ObjProp.property (PropKey.ident name) (PropVal.lit l)]
        = [(name, some l)]) ∧
    (∀ (name : String) (l : LitVal), name ≠ "" → litTruthy l = false →
      getObjectFromExpression [ObjProp.property (PropKey.ident name) (PropVal.lit l)]
        = [(name, none)]) ∧
    (∀ name : String, name ≠ "" →
      getObjectFromExpression [ObjProp.property (PropKey.ident name) PropVal.nonLit]
        = [(name, none)]) := by
  refine ⟨?_, ?_, ?_, ?_, ?_⟩
  · intro nodes h
    rw [extractMetaExport]
    rw [List.find?_eq_none.mpr (fun n hn => by simp [h n hn])]
  · intro pre rest stmts props hpre
    rw [extractMetaExport]
    rw [show (pre ++ MdNode.mdxjsEsm (EstreeStmt.exportNamedVar (some "meta")
          (some (InitExpr.objectExpr props)) :: stmts) :: rest).find?
            isMetaExportNode
        = some (MdNode.mdxjsEsm (EstreeStmt.exportNamedVar (some "meta")
            (some (InitExpr.objectExpr props)) :: stmts)) from ?_]
    · rfl
    · rw [find?_skip_clean isMetaExportNode pre _ hpre]
      have hp : isMetaExportNode (MdNode.mdxjsEsm
          (EstreeStmt.exportNamedVar (some "meta")
            (some (InitExpr.objectExpr props)) :: stmts)) = true := by
        simp [isMetaExportNode]
      rw [List.find?_cons, hp]
  · intro name l hname htruthy
    simp [getObjectFromExpression, hname, htruthy, metaSet]
  · intro name l hname htruthy
    simp [getObjectFromExpression, hname, htruthy, metaSet]
  · intro name hname
    simp [getObjectFromExpression, hname, metaSet]

/-- C5 witness: a `meta` export holding a truthy string literal is found
and its value retained. -/
theorem nextai_C5_witness :
    extractMetaExport [MdNode.mdxjsEsm [EstreeStmt.exportNamedVar (some "meta")
        (some (InitExpr.objectExpr [ObjProp.property (PropKey.ident "title")
          (PropVal.lit (LitVal.str "Home"))]))]]
      = some [("title", some (LitVal.str "Home"))] := by
  have h := nextai_C5.2.1 [] [] []
    [ObjProp.property (PropKey.ident "title") (PropVal.lit (LitVal.str "Home"))]
    (by simp)
  exact h.trans (by decide)

/-- C6: the slugs of a document's sections are pairwise distinct; they are a
deterministic function of the document's heading sequence — the run of a
fresh slugger (state reset per document) over the truthy (non-empty) heading
texts, which MDX stripping leaves unchanged (a heading whose flattened text
is empty is falsy, so the source leaves its slug undefined without consulting
the slugger); and two identical "Usage" headings receive `usage` and
`usage-1`. -/
theorem nextai_C6 (nodes : List MdNode) :
    (docSlugs nodes).Nodup ∧
    docSlugs nodes
      = sluggerRun [] ((headingTexts nodes).filter (fun t => t ≠ "")) ∧
    docSlugs [MdNode.heading 2 "Usage", MdNode.paragraph "Do X",
        MdNode.heading 2 "Usage"]
      = ["usage", "usage-1"] := by
  have heq : docSlugs nodes
      = sluggerRun [] ((headingTexts nodes).filter (fun t => t ≠ "")) := by
    rw [docSlugs_eq_sluggerRun, headingTexts_filter]
  refine ⟨?_, heq, by decide⟩
  rw [heq]
  exact (sluggerRun_spec ((headingTexts nodes).filter (fun t => t ≠ "")) []).1

/-- C7: a directory whose name is on the ignored-directories deny-list is
pruned before recursion: it contributes zero entries whatever its contents,
and the manifest of a listing containing it equals the manifest of the
listing without it. -/
theorem nextai_C7 (dirPath : String) (pp : Option String) (name : String)
    (children : List FsEntry) (pre post : List FsEntry)
    (h : name ∈ ignoredDirectories) :
    walkOne dirPath pp (FsEntry.dir name children) = [] ∧
    walkFs dirPath pp (pre ++ FsEntry.dir name children :: post)
      = walkFs dirPath pp (pre ++ post) := by
  have hone : walkOne dirPath pp (FsEntry.dir name children) = [] := by
    rw [walkOne, if_pos h]
  refine ⟨hone, ?_⟩
  rw [walkFs, walkFs, walkList_append, walkList_append,
    show walkList dirPath pp (FsEntry.dir name children :: post)
      = walkOne dirPath pp (FsEntry.dir name children)
          ++ walkList dirPath pp post from rfl, hone]
  rfl

/-- C7 witness: an ignored directory full of eligible `.mdx` files yields an
empty manifest. -/
theorem nextai_C7_witness :
    walkFs "docs" none [FsEntry.dir "03-pages" [FsEntry.file "a.mdx"]] = [] := by
  have h := (nextai_C7 "docs" none "03-pages" [FsEntry.file "a.mdx"] [] []
    (by decide)).2
  simpa using h

/-- C9 counterexample: in the `part_000`/`githubUtils` `walk`, a file one
directory down is tagged with the top-level call's `parentPath` (here
`undefined`), not with its immediate parent directory `docs/sub`. -/
theorem nextai_C9_counterexample :
    walkFs "docs" none [FsEntry.dir "sub" [FsEntry.file "a.mdx"]]
      = [⟨"docs/sub/a.mdx", none⟩] ∧
    (⟨"docs/sub/a.mdx", none⟩ : WalkEntry).parentPath ≠ some "docs/sub" := by
  decide

/-- C9 (amended): in the `part_000`/`githubUtils` variant of `walk`, every
discovered entry carries the `parentPath` argument of the call that started
the walk, threaded through recursion unchanged (so `undefined` in the
pipeline, which omits it); only the `part_001` variant
(`walkGithubDirectory`) tags each eligible file with its immediate parent
directory — the directory whose listing contained it. -/
theorem nextai_C9 :
    (∀ (dirPath : String) (pp : Option String) (listing : List FsEntry),
      ∀ e ∈ walkFs dirPath pp listing, e.parentPath = pp) ∧
    (∀ (dirPath : String) (listing : List FsEntry),
      ∀ e ∈ walkGFs dirPath listing,
        ∃ d nm, e.parentPath = some d ∧ e.path = pathJoin d nm ∧
          hasMdxExt nm = true) := by
  constructor
  · intro dirPath pp listing e he
    rw [walkFs, mem_sortByPath] at he
    exact walkList_parent dirPath pp listing e he
  · intro dirPath listing e he
    rw [walkGFs, mem_sortByPath] at he
    exact walkGList_parent dirPath listing e he

/-- C9 witness: a nested eligible file in the `part_001` variant is tagged
with its immediate parent directory. -/
theorem nextai_C9_witness :
    ∃ d nm, (⟨"docs/sub/a.mdx", some "docs/sub"⟩ : WalkEntry).parentPath
        = some d ∧
      (⟨"docs/sub/a.mdx", some "docs/sub"⟩ : WalkEntry).path = pathJoin d nm ∧
      hasMdxExt nm = true := by
  exact nextai_C9.2 "docs" [FsEntry.dir "sub" [FsEntry.file "a.mdx"]]
    ⟨"docs/sub/a.mdx", some "docs/sub"⟩ (by decide)

/-- C8: on a checksum match with a differing parent, reconciliation
re-resolves the parent page by path and updates only the parent link of the
page record: the pages table changes only in that record's `parentPageId`,
its checksum and other fields are untouched, all persisted section records
are unchanged, and zero embedding calls are made. -/
theorem nextai_C8 (embed : Embedder) (insF : Nat → Bool) (st : Store)
    (s : SrcInput) (pm : ProcessedMdx) (existing : PageRecord)
    (hl : s.loadResult = some pm)
    (he : findPageByPath st s.path = some existing)
    (hck : existing.checksum = some pm.checksum)
    (hpar : existingParentPath st existing ≠ s.parentPath) :
    (processSource embed insF st s).calls = 0 ∧
    (processSource embed insF st s).store.sections = st.sections ∧
    (processSource embed insF st s).store.pages
      = st.pages.map (fun p =>
          if p.id = existing.id then
            { p with parentPageId :=
                (findPageByOptPath st s.parentPath).map (fun (q : PageRecord) => q.id) }
          else p) ∧
    findPageByPath (processSource embed insF st s).store s.path
      = some { existing with parentPageId :=
          (findPageByOptPath st s.parentPath).map (fun (q : PageRecord) => q.id) } ∧
    ({ existing with parentPageId :=
        (findPageByOptPath st s.parentPath).map (fun (q : PageRecord) => q.id) }).checksum
      = existing.checksum := by
  have heq : processSource embed insF st s
      = ⟨updateParentLink st existing.id
          ((findPageByOptPath st s.parentPath).map (fun (q : PageRecord) => q.id)),
         Outcome.relinked, 0⟩ := by
    rw [processSource_eq_found embed insF st s pm existing hl he, if_pos hck,
      if_neg hpar]
  rw [heq]
  refine ⟨rfl, rfl, rfl, ?_, rfl⟩
  show findPageByPath (updateParentLink st existing.id _) s.path = _
  rw [findPageByPath_updateParentLink, he]
  simp

/-- C8 witness: a store where the page's stored parent differs from the
entry's parent gets exactly its parent link updated. -/
theorem nextai_C8_witness :
    (processSource (fun _ => some ([1], 2)) (fun _ => false)
        ⟨[⟨0, "/a", some "ck", "github", "guide", none, some 1⟩,
          ⟨1, "/p", some "ckp", "github", "guide", none, none⟩], [], 2⟩
        ⟨"guide", "github", "/a", some "/q",
          some ⟨"ck", none, [⟨"c", some "h", some "h"⟩]⟩⟩).calls = 0 ∧
    (processSource (fun _ => some ([1], 2)) (fun _ => false)
        ⟨[⟨0, "/a", some "ck", "github", "guide", none, some 1⟩,
          ⟨1, "/p", some "ckp", "github", "guide", none, none⟩], [], 2⟩
        ⟨"guide", "github", "/a", some "/q",
          some ⟨"ck", none, [⟨"c", some "h", some "h"⟩]⟩⟩).store.sections = [] := by
  have h := nextai_C8 (fun _ => some ([1], 2)) (fun _ => false)
    ⟨[⟨0, "/a", some "ck", "github", "guide", none, some 1⟩,
      ⟨1, "/p", some "ckp", "github", "guide", none, none⟩], [], 2⟩
    ⟨"guide", "github", "/a", some "/q",
      some ⟨"ck", none, [⟨"c", some "h", some "h"⟩]⟩⟩
    ⟨"ck", none, [⟨"c", some "h", some "h"⟩]⟩
    ⟨0, "/a", some "ck", "github", "guide", none, some 1⟩
    rfl (by decide) (by decide) (by decide)
  exact ⟨h.1, h.2.1⟩

/-- C10: the persisted page record is keyed by the normalized path — the
raw discovered path with the leading `docs` stripped and the trailing
`.md`/`.mdx` extension removed — and the same normalization is applied to
the entry's parent path; `docs/01-app/intro.mdx` is keyed as
`/01-app/intro`, and a completed reconciliation stores the page under the
source's normalized path. -/
theorem nextai_C10 :
    (∀ r : String, normalizeGithubPath ("docs" ++ r ++ ".mdx") = r) ∧
    (∀ r : String, normalizeGithubPath ("docs" ++ r ++ ".md") = r) ∧
    (∀ (source filePath : String) (parentFilePath : Option String)
        (lr : Option ProcessedMdx),
      (mkGithubSource source filePath parentFilePath lr).path
          = normalizeGithubPath filePath ∧
      (mkGithubSource source filePath parentFilePath lr).parentPath
          = parentFilePath.map normalizeGithubPath) ∧
    (mkGithubSource "guide" "docs/01-app/intro.mdx" (some "docs/01-app")
        none).path = "/01-app/intro" ∧
    (mkGithubSource "guide" "docs/01-app/intro.mdx" (some "docs/01-app")
        none).parentPath = some "/01-app" ∧
    (∀ (embed : Embedder) (insF : Nat → Bool) (st : Store)
        (source filePath : String) (parentFilePath : Option String)
        (pm : ProcessedMdx),
      st.WF →
      (processSource embed insF st
          (mkGithubSource source filePath parentFilePath (some pm))).outcome
        = Outcome.completed →
      ∃ pg, findPageByPath (processSource embed insF st
            (mkGithubSource source filePath parentFilePath (some pm))).store
            (normalizeGithubPath filePath)
          = some pg ∧ pg.checksum = some pm.checksum) := by
  refine ⟨normalizeGithubPath_mdx, normalizeGithubPath_md,
    fun source filePath parentFilePath lr => ⟨rfl, rfl⟩, by decide, by decide, ?_⟩
  intro embed insF st source filePath parentFilePath pm hWF hcompl
  obtain ⟨pg, hfind, hck, _, _⟩ :=
    (processSource_spec embed insF st
      (mkGithubSource source filePath parentFilePath (some pm)) hWF).2.2.2
      pm rfl hcompl
  exact ⟨pg, hfind, hck⟩

/-- C10 witness: the example path normalizes as claimed and a completed run
on an empty store persists the page under the normalized path. -/
theorem nextai_C10_witness :
    normalizeGithubPath "docs/01-app/intro.mdx" = "/01-app/intro" ∧
    ∃ pg, findPageByPath (processSource (fun _ => some ([1], 2))
          (fun _ => false) ⟨[], [], 0⟩
          (mkGithubSource "guide" "docs/01-app/intro.mdx" (some "docs/01-app")
            (some ⟨"ck", none, [⟨"c", some "h", some "h"⟩]⟩))).store
          (normalizeGithubPath "docs/01-app/intro.mdx")
        = some pg ∧ pg.checksum = some "ck" := by
  constructor
  · exact nextai_C10.1 "/01-app/intro"
  · exact nextai_C10.2.2.2.2.2 (fun _ => some ([1], 2)) (fun _ => false)
      ⟨[], [], 0⟩ "guide" "docs/01-app/intro.mdx" (some "docs/01-app")
      ⟨"ck", none, [⟨"c", some "h", some "h"⟩]⟩
      ⟨by simp, by simp, by simp, by simp, by simp⟩ (by decide)

end Nextai
